import Mathlib

/-!
Verification development for the `rpds` persistent-collection library
(`HashTrieMap` and `Stack`).  The repository ships only its test suite, so the
core data structures are modelled from the specification: a hash array mapped
trie with 32-way branching addressed by successive 5-bit chunks of a 64-bit
key hash, collision buckets for fully colliding hashes, and a persistent
singly linked stack.
-/

namespace Rpds

/-- Modelled from the spec: the Hash Engine (§2) and the Key/Element data
model (§3) of the missing implementation.  A key carries an identity and a
user-supplied hash; equality is structural, and the engine works with the
hash truncated to the 64-bit platform width, so equal keys always have equal
engine hashes. -/
structure Key where
  id : Nat
  hsh : Nat
deriving DecidableEq, Repr

/-- The engine hash of a key: the user hash truncated to 64 bits. -/
def Key.hashv (k : Key) : Nat := k.hsh % 2 ^ 64

/-- Number of trie levels before the 64-bit hash is exhausted
(13 chunks of 5 bits cover 65 bits). -/
def maxLevels : Nat := 13

/-- The 5-bit chunk of hash `h` consumed at trie level `L`. -/
def chunk (h L : Nat) : Nat := h / 32 ^ L % 32

/-- Modelled from the spec: the Trie Node data model (§3, §9), a tagged
variant over a single-pair leaf, a collision bucket of pairs whose keys all
share one engine hash, and a branch holding a sparse array of child slots
indexed by the hash chunk of the current level (represented as an
association list from chunk index to child). -/
inductive Node (V : Type) where
  | leaf (k : Key) (v : V)
  | collision (tag : Nat) (bucket : List (Key × V))
  | branch (children : List (Nat × Node V))

/-- Look up the child stored in branch slot `c`. -/
def getChild {V : Type} (children : List (Nat × Node V)) (c : Nat) : Option (Node V) :=
  (children.find? (fun q => q.1 == c)).map (·.2)

mutual

/-- All key/value pairs stored below a node (the `items()` enumeration). -/
def entriesN {V : Type} (n : Node V) : List (Key × V) :=
  match n with
  | .leaf k v => [(k, v)]
  | .collision _ bucket => bucket
  | .branch children => entriesCh children

/-- Key/value pairs below a list of branch slots. -/
def entriesCh {V : Type} (children : List (Nat × Node V)) : List (Key × V) :=
  match children with
  | [] => []
  | (_, ch) :: rest => entriesN ch ++ entriesCh rest

end

mutual

/-- Modelled from the spec: `lookup` (§4.1) — descend by successive hash
chunks; at a leaf or collision bucket, scan for an equal key; absence at any
level means not found. -/
def lookupN {V : Type} (L : Nat) (n : Node V) (k : Key) : Option V :=
  match n with
  | .leaf k' v' => if k' = k then some v' else none
  | .collision tag bucket =>
      if k.hashv = tag then (bucket.find? (fun q => q.1 == k)).map (·.2) else none
  | .branch children => lookupCh L children (chunk k.hashv L) k

/-- Lookup inside the sparse child array of a branch at level `L`. -/
def lookupCh {V : Type} (L : Nat) (children : List (Nat × Node V)) (c : Nat) (k : Key) :
    Option V :=
  match children with
  | [] => none
  | (c', ch) :: rest => if c' = c then lookupN (L + 1) ch k else lookupCh L rest c k

end

/-- Modelled from the spec: collision handling and the hash-chunk-exhaustion
tie-break (§3 invariant, §4.1).  Two nodes whose engine hashes differ are
pushed down a chain of single-slot branches until the hash chunks first
diverge; if every chunk is exhausted the entries fall back to an explicit
collision bucket instead of recursing forever. -/
def splitNodes {V : Type} : Nat → Nat → Node V → Nat → Node V → Nat → Node V
  | 0, _, n1, h1, n2, _ => .collision h1 (entriesN n1 ++ entriesN n2)
  | fuel + 1, L, n1, h1, n2, h2 =>
      if chunk h1 L = chunk h2 L then
        .branch [(chunk h1 L, splitNodes fuel (L + 1) n1 h1 n2 h2)]
      else
        .branch [(chunk h1 L, n1), (chunk h2 L, n2)]

/-- Replace the value of `k` in a collision bucket, or extend the bucket. -/
def bucketInsert {V : Type} (bucket : List (Key × V)) (k : Key) (v : V) : List (Key × V) :=
  match bucket with
  | [] => [(k, v)]
  | (k', v') :: rest => if k' = k then (k, v) :: rest else (k', v') :: bucketInsert rest k v

mutual

/-- Modelled from the spec: `insert` (§4.1) — descend by hash chunks; replace
the value when the key is already present; on a hash collision at a would-be
leaf, convert to or extend a collision bucket; otherwise split into branches
at the level where the two hashes first diverge. -/
def insertN {V : Type} (L : Nat) (n : Node V) (k : Key) (v : V) : Node V :=
  match n with
  | .leaf k' v' =>
      if k' = k then .leaf k v
      else if k'.hashv = k.hashv then .collision k.hashv [(k', v'), (k, v)]
      else splitNodes (maxLevels - L) L (.leaf k' v') k'.hashv (.leaf k v) k.hashv
  | .collision tag bucket =>
      if k.hashv = tag then .collision tag (bucketInsert bucket k v)
      else splitNodes (maxLevels - L) L (.collision tag bucket) tag (.leaf k v) k.hashv
  | .branch children => .branch (insertCh L children (chunk k.hashv L) k v)

/-- Insert into the sparse child array of a branch: update the slot of the
key's chunk in place, or populate an absent slot with a fresh leaf. -/
def insertCh {V : Type} (L : Nat) (children : List (Nat × Node V)) (c : Nat) (k : Key)
    (v : V) : List (Nat × Node V) :=
  match children with
  | [] => [(c, .leaf k v)]
  | (c', ch) :: rest =>
      if c' = c then (c', insertN (L + 1) ch k v) :: rest
      else (c', ch) :: insertCh L rest c k v

end

/-- Drop every pair whose key equals `k` from a collision bucket. -/
def bucketRemove {V : Type} (bucket : List (Key × V)) (k : Key) : List (Key × V) :=
  bucket.filter (fun q => !(q.1 == k))

/-- Modelled from the spec: after a removal a collision bucket that shrank to
one pair collapses back into a leaf; an emptied bucket vanishes. -/
def collapseBucket {V : Type} (tag : Nat) (bucket : List (Key × V)) : Option (Node V) :=
  match bucket with
  | [] => none
  | [(k, v)] => some (.leaf k v)
  | _ => some (.collision tag bucket)

/-- Modelled from the spec: `remove` collapses any now-singleton branch back
into a leaf to keep the trie minimal (§4.1); an emptied branch vanishes. -/
def normalizeBranch {V : Type} (children : List (Nat × Node V)) : Option (Node V) :=
  match children with
  | [] => none
  | [(_, .leaf k v)] => some (.leaf k v)
  | [(_, .collision tag bucket)] => some (.collision tag bucket)
  | _ => some (.branch children)

mutual

/-- Modelled from the spec: `remove` (§4.1) — descend by hash chunks; signal
`NotFound` (`none`) when the key is absent; otherwise delete the pair,
collapsing now-singleton buckets and branches, sharing untouched siblings.
`some none` means the whole subtree vanished. -/
def removeN {V : Type} (L : Nat) (n : Node V) (k : Key) : Option (Option (Node V)) :=
  match n with
  | .leaf k' _ => if k' = k then some none else none
  | .collision tag bucket =>
      if k.hashv = tag then
        if bucket.any (fun q => q.1 == k) then
          some (collapseBucket tag (bucketRemove bucket k))
        else none
      else none
  | .branch children =>
      match removeCh L children (chunk k.hashv L) k with
      | none => none
      | some children' => some (normalizeBranch children')

/-- Removal inside the sparse child array of a branch at level `L`. -/
def removeCh {V : Type} (L : Nat) (children : List (Nat × Node V)) (c : Nat) (k : Key) :
    Option (List (Nat × Node V)) :=
  match children with
  | [] => none
  | (c', ch) :: rest =>
      if c' = c then
        match removeN (L + 1) ch k with
        | none => none
        | some none => some rest
        | some (some ch') => some ((c', ch') :: rest)
      else
        match removeCh L rest c k with
        | none => none
        | some rest' => some ((c', ch) :: rest')

end

/-- Well-formedness of a trie node sitting at level `L` whose path from the
root spells the hash prefix `p` (the value of every stored hash modulo
`32 ^ L`): leaves and buckets record hashes consistent with the path, bucket
keys are distinct and share the bucket's 64-bit tag, branch slots carry
distinct chunk indices, and each child is well formed one level deeper
(spec §3, trie invariant). -/
inductive WF {V : Type} : Nat → Nat → Node V → Prop where
  | leaf : ∀ {L p : Nat} {k : Key} {v : V},
      p < 32 ^ L → L ≤ maxLevels → k.hashv % 32 ^ L = p →
      WF L p (.leaf k v)
  | collision : ∀ {L p tag : Nat} {bucket : List (Key × V)},
      p < 32 ^ L → L ≤ maxLevels → tag < 2 ^ 64 → tag % 32 ^ L = p →
      (∀ q ∈ bucket, Key.hashv q.1 = tag) →
      (bucket.map Prod.fst).Nodup →
      WF L p (.collision tag bucket)
  | branch : ∀ {L p : Nat} {children : List (Nat × Node V)},
      p < 32 ^ L → L < maxLevels →
      (children.map Prod.fst).Nodup →
      (∀ q ∈ children, WF (L + 1) (p + q.1 * 32 ^ L) q.2) →
      WF L p (.branch children)

/-- Modelled from the spec: the `HashTrieMap` facade data model (§3) — a root
trie node (or the empty sentinel) together with an entry count kept in sync
for O(1) `len`. -/
structure HashTrieMap (V : Type) where
  root : Option (Node V)
  size : Nat

/-- The empty map (`HashTrieMap()`). -/
def emptyM (V : Type) : HashTrieMap V := ⟨none, 0⟩

/-- Modelled from the spec: facade lookup (§4.2 `get`), delegating to the
trie from level 0. -/
def lookupM {V : Type} (m : HashTrieMap V) (k : Key) : Option V :=
  match m.root with
  | none => none
  | some n => lookupN 0 n k

/-- Membership test (`k in m`). -/
def containsM {V : Type} (m : HashTrieMap V) (k : Key) : Bool :=
  (lookupM m k).isSome

/-- Modelled from the spec: `insert` (§4.2) — returns a new map, never
fails; the tracked size grows only when the key was absent. -/
def insertM {V : Type} (m : HashTrieMap V) (k : Key) (v : V) : HashTrieMap V :=
  { root := some (match m.root with
      | none => .leaf k v
      | some n => insertN 0 n k v)
    size := m.size + (if containsM m k then 0 else 1) }

/-- Modelled from the spec: `remove` (§4.2) — fails with a missing-key
condition carrying the offending key when the key is absent. -/
def removeM {V : Type} (m : HashTrieMap V) (k : Key) : Except Key (HashTrieMap V) :=
  match m.root with
  | none => .error k
  | some n =>
      match removeN 0 n k with
      | none => .error k
      | some r => .ok { root := r, size := m.size - 1 }

/-- Modelled from the spec: `discard` (§4.1, §4.2) — identical to `remove`
but returns the receiver unchanged instead of failing when the key is
absent. -/
def discardM {V : Type} (m : HashTrieMap V) (k : Key) : HashTrieMap V :=
  match m.root with
  | none => m
  | some n =>
      match removeN 0 n k with
      | none => m
      | some r => { root := r, size := m.size - 1 }

/-- Modelled from the spec: indexed lookup `m[k]` (§6 lookup boundary) —
fails with a missing-key condition reporting the offending key. -/
def getItemM {V : Type} (m : HashTrieMap V) (k : Key) : Except Key V :=
  match lookupM m k with
  | some v => .ok v
  | none => .error k

/-- The `items()` enumeration of a map. -/
def itemsM {V : Type} (m : HashTrieMap V) : List (Key × V) :=
  match m.root with
  | none => []
  | some n => entriesN n

/-- Modelled from the spec: map equality (§4.2) — `a == b` iff the sizes
agree and every key of `a` maps in `b` to an equal value; deliberately
independent of trie shape and insertion order. -/
def mapEq {V : Type} [DecidableEq V] (a b : HashTrieMap V) : Bool :=
  a.size == b.size && (itemsM a).all (fun q => lookupM b q.1 == some q.2)

/-- Map disequality `a != b`, the negation of `==`. -/
def mapNe {V : Type} [DecidableEq V] (a b : HashTrieMap V) : Bool :=
  !mapEq a b

/-- Modelled from the spec: Python truthiness of the sized map container —
`bool(m)` is `len(m) != 0`. -/
def toBoolM {V : Type} (m : HashTrieMap V) : Bool :=
  m.size != 0

/-- `len(m)` for the facade. -/
def lenM {V : Type} (m : HashTrieMap V) : Nat := m.size

/-- Facade invariant: the root is well formed and the tracked size equals
the number of stored entries (spec §3, HashTrieMap invariant). -/
def MWF {V : Type} (m : HashTrieMap V) : Prop :=
  (∀ n, m.root = some n → WF 0 0 n) ∧ m.size = (itemsM m).length

/-- Modelled from the spec: a method call `m.insert(k, v)` evaluated against
the receiver — it returns the pair of the freshly built map and the receiver
the call leaves behind, which is the very same value (§1, §7: the receiver
is left completely unchanged). -/
def insertCall {V : Type} (m : HashTrieMap V) (k : Key) (v : V) :
    HashTrieMap V × HashTrieMap V :=
  (insertM m k v, m)

/-- Modelled from the spec: the Persistent Stack data model (§3, §4.3) — a
singly linked chain of elements, top of stack first, plus a tracked length
for O(1) `len`. -/
structure Stack (α : Type) where
  elems : List α
  length : Nat

/-- The empty-collection error condition of `peek`/`pop` (§7). -/
inductive StackErr where
  | empty
deriving DecidableEq

/-- The empty stack (`Stack()`). -/
def emptyS (α : Type) : Stack α := ⟨[], 0⟩

/-- Modelled from the spec: `push` (§4.3) — O(1), never fails, returns a new
stack whose head is the pushed value. -/
def pushS {α : Type} (s : Stack α) (v : α) : Stack α :=
  ⟨v :: s.elems, s.length + 1⟩

/-- Modelled from the spec: `peek` (§4.3) — the top value, failing with the
empty-collection condition on an empty stack. -/
def peekS {α : Type} (s : Stack α) : Except StackErr α :=
  match s.elems with
  | [] => .error .empty
  | v :: _ => .ok v

/-- Modelled from the spec: `pop` (§4.3) — the stack without its top value,
failing with the empty-collection condition on an empty stack. -/
def popS {α : Type} (s : Stack α) : Except StackErr (Stack α) :=
  match s.elems with
  | [] => .error .empty
  | _ :: rest => .ok ⟨rest, s.length - 1⟩

/-- Modelled from the spec: stack equality (§4.3) — order-sensitive: equal
length and pairwise-equal elements in the same positions. -/
def stackEq {α : Type} [DecidableEq α] (a b : Stack α) : Bool :=
  a.length == b.length && a.elems == b.elems

/-- Modelled from the spec: a Python value as seen by the equality boundary
(§4.2) — a persistent map, a native mapping, or any other object. -/
inductive PyValue (V : Type) where
  | map (m : HashTrieMap V)
  | dict (d : List (Key × V))
  | other (o : Nat)

/-- Lookup in a native mapping modelled as an association list. -/
def dictLookup {V : Type} (d : List (Key × V)) (k : Key) : Option V :=
  (d.find? (fun q => q.1 == k)).map (·.2)

/-- Content equality of two native mappings. -/
def dictEq {V : Type} [DecidableEq V] (d1 d2 : List (Key × V)) : Bool :=
  d1.all (fun q => dictLookup d2 q.1 == some q.2) &&
    d2.all (fun q => dictLookup d1 q.1 == some q.2)

/-- Modelled from the spec: Python `==` at the collection boundary (§4.2) —
two maps compare by content, two native mappings compare by content, and a
persistent map never compares equal to a value of any other kind, whatever
its contents. -/
def pyEq {V : Type} [DecidableEq V] : PyValue V → PyValue V → Bool
  | .map a, .map b => mapEq a b
  | .dict a, .dict b => dictEq a b
  | .other a, .other b => a == b
  | _, _ => false

/-- Python `!=` at the collection boundary, the negation of `==`. -/
def pyNe {V : Type} [DecidableEq V] (a b : PyValue V) : Bool :=
  !pyEq a b

/-- One step of a client insert/remove sequence.  A removal is applied where
the key is present and leaves the map untouched otherwise (the guarded
removal pattern of the suite). -/
inductive MapOp (V : Type) where
  | ins (k : Key) (v : V)
  | del (k : Key)

/-- Apply one operation of a sequence. -/
def applyOp {V : Type} (m : HashTrieMap V) : MapOp V → HashTrieMap V
  | .ins k v => insertM m k v
  | .del k => discardM m k

/-- Run a sequence of insert/remove operations from the empty map. -/
def runOps {V : Type} (ops : List (MapOp V)) : HashTrieMap V :=
  ops.foldl applyOp (emptyM V)

/-- The pairs `(i, i)` for `i` in `0..50`, inserted in forward order
(Python's `hash(i) = i` for small naturals). -/
def fwd50 : List (MapOp Nat) :=
  (List.range 50).map (fun i => .ins ⟨i, i⟩ i)

/-- The pairs `(i, i)` for `i` in `49..0`, inserted in reverse order. -/
def rev50 : List (MapOp Nat) :=
  (List.range 50).reverse.map (fun i => .ins ⟨i, i⟩ i)

theorem pow32_pos (L : Nat) : 0 < 32 ^ L :=
  Nat.pos_pow_of_pos L (by norm_num)

theorem chunk_lt (h L : Nat) : chunk h L < 32 :=
  Nat.mod_lt _ (by norm_num)

theorem hashv_lt (k : Key) : k.hashv < 2 ^ 64 :=
  Nat.mod_lt _ (by norm_num)

/-- Peeling one 5-bit chunk off the residue of a hash. -/
theorem mod_break (h L : Nat) :
    h % 32 ^ (L + 1) = h % 32 ^ L + chunk h L * 32 ^ L := by
  rw [Nat.mod_pow_succ, chunk, Nat.mul_comm]

/-- A residue-and-chunk decomposition is unique. -/
theorem resid_inj {P r p ch c : Nat} (hr : r < P) (hp : p < P)
    (he : r + ch * P = p + c * P) : r = p ∧ ch = c := by
  have hP : 0 < P := lt_of_le_of_lt (Nat.zero_le _) hp
  have h1 : (r + ch * P) % P = r := by
    rw [Nat.add_mul_mod_self_right, Nat.mod_eq_of_lt hr]
  have h2 : (p + c * P) % P = p := by
    rw [Nat.add_mul_mod_self_right, Nat.mod_eq_of_lt hp]
  have hrp : r = p := by rw [← h1, he, h2]
  refine ⟨hrp, ?_⟩
  have hm : ch * P = c * P := by omega
  exact Nat.eq_of_mul_eq_mul_right hP hm

/-- A hash whose residue one level deeper spells prefix `p` plus chunk `c`
has chunk `c` at this level and residue `p` at this level. -/
theorem prefix_inj {h p c L : Nat} (hp : p < 32 ^ L)
    (he : h % 32 ^ (L + 1) = p + c * 32 ^ L) :
    h % 32 ^ L = p ∧ chunk h L = c := by
  have hb := mod_break h L
  exact resid_inj (Nat.mod_lt h (pow32_pos L)) hp (by omega)

/-- Distinct hashes with equal residues at a level still differ above it. -/
theorem div_ne_of_mod_eq {h1 h2 P : Nat} (hm : h1 % P = h2 % P)
    (hne : h1 ≠ h2) : h1 / P ≠ h2 / P := by
  intro hd
  exact hne (by rw [← Nat.div_add_mod h1 P, ← Nat.div_add_mod h2 P, hm, hd])

/-- Past the last level every 64-bit hash is its own residue. -/
theorem mod_eq_self_of_exhausted {h L : Nat} (hL : maxLevels ≤ L)
    (hh : h < 2 ^ 64) : h % 32 ^ L = h := by
  apply Nat.mod_eq_of_lt
  calc h < 2 ^ 64 := hh
    _ ≤ 32 ^ maxLevels := by norm_num [maxLevels]
    _ ≤ 32 ^ L := Nat.pow_le_pow_right (by norm_num) hL

/-- A flat (non-branch) node all of whose entries carry engine hash `h`:
a leaf with that key hash, or a collision bucket tagged `h`. -/
def HashOf {V : Type} : Node V → Nat → Prop
  | .leaf k _, h => k.hashv = h
  | .collision tag _, h => tag = h
  | .branch _, _ => False

/-- The level-free content conditions of a flat node: bucket keys share the
64-bit tag and are pairwise distinct. -/
def FlatOK {V : Type} : Node V → Prop
  | .leaf _ _ => True
  | .collision tag bucket =>
      tag < 2 ^ 64 ∧ (∀ q ∈ bucket, Key.hashv q.1 = tag) ∧ (bucket.map Prod.fst).Nodup
  | .branch _ => False

theorem lookupN_leaf {V : Type} (L : Nat) (k' : Key) (v' : V) (k : Key) :
    lookupN L (.leaf k' v') k = if k' = k then some v' else none := rfl

theorem lookupN_collision {V : Type} (L : Nat) (tag : Nat) (bucket : List (Key × V))
    (k : Key) :
    lookupN L (.collision tag bucket) k =
      if k.hashv = tag then (bucket.find? (fun q => q.1 == k)).map (·.2) else none := rfl

theorem lookupN_branch {V : Type} (L : Nat) (children : List (Nat × Node V)) (k : Key) :
    lookupN L (.branch children) k = lookupCh L children (chunk k.hashv L) k := rfl

theorem lookupCh_nil {V : Type} (L c : Nat) (k : Key) :
    lookupCh L ([] : List (Nat × Node V)) c k = none := rfl

theorem lookupCh_cons {V : Type} (L : Nat) (c' : Nat) (ch : Node V)
    (rest : List (Nat × Node V)) (c : Nat) (k : Key) :
    lookupCh L ((c', ch) :: rest) c k =
      if c' = c then lookupN (L + 1) ch k else lookupCh L rest c k := rfl

/-- Lookup in a flat node ignores the level. -/
theorem lookupN_flat_level {V : Type} {n : Node V} {h : Nat} (hh : HashOf n h)
    (L L' : Nat) (k : Key) : lookupN L n k = lookupN L' n k := by
  cases n with
  | leaf k' v' => rfl
  | collision tag bucket => rfl
  | branch children => cases hh

/-- Lookup of a key whose hash misses a flat node's hash is a miss. -/
theorem lookupN_flat_none {V : Type} {n : Node V} {h : Nat} (hh : HashOf n h)
    {j : Key} (hj : j.hashv ≠ h) (L : Nat) : lookupN L n j = none := by
  cases n with
  | leaf k' v' =>
      have : k' ≠ j := fun he => hj (he ▸ hh)
      simp [lookupN_leaf, this]
  | collision tag bucket =>
      have : j.hashv ≠ tag := fun he => hj (hh ▸ he)
      simp [lookupN_collision, this]
  | branch children => cases hh

theorem find?_key_of_mem_nodup {β : Type} {b : List (Key × β)} {j : Key} {w : β}
    (hmem : (j, w) ∈ b) (hnd : (b.map Prod.fst).Nodup) :
    b.find? (fun q => q.1 == j) = some (j, w) := by
  induction b with
  | nil => cases hmem
  | cons q rest ih =>
      rcases List.mem_cons.mp hmem with he | hmem2
      · rw [← he]
        simp
      · obtain ⟨k', v'⟩ := q
        have hnd' : (∀ x : β, (k', x) ∉ rest) ∧ (List.map Prod.fst rest).Nodup := by
          simpa using hnd
        have hne : (k' == j) = false := by
          apply beq_false_of_ne
          intro he
          subst he
          exact hnd'.1 w hmem2
        rw [List.find?_cons]
        simp only [hne]
        exact ih hmem2 hnd'.2

theorem find?_key_some {β : Type} {b : List (Key × β)} {j : Key} {q : Key × β}
    (hf : b.find? (fun q => q.1 == j) = some q) : q ∈ b ∧ q.1 = j := by
  refine ⟨List.mem_of_find?_eq_some hf, ?_⟩
  have := List.find?_some hf
  simpa using this

/-- The characterisation of a split: the query descends to the side whose
full hash it carries, and misses otherwise. -/
theorem lookupN_splitNodes {V : Type} {n1 n2 : Node V} {h1 h2 : Nat}
    (hh1 : HashOf n1 h1) (hh2 : HashOf n2 h2)
    (hb1 : h1 < 2 ^ 64) (hb2 : h2 < 2 ^ 64) (hne : h1 ≠ h2) (j : Key) :
    ∀ fuel L, maxLevels ≤ L + fuel → h1 % 32 ^ L = h2 % 32 ^ L →
      lookupN L (splitNodes fuel L n1 h1 n2 h2) j =
        if j.hashv = h1 then lookupN L n1 j
        else if j.hashv = h2 then lookupN L n2 j
        else none := by
  intro fuel
  induction fuel with
  | zero =>
      intro L hml hmeq
      exfalso
      have e1 : h1 % 32 ^ L = h1 := mod_eq_self_of_exhausted (by omega) hb1
      have e2 : h2 % 32 ^ L = h2 := mod_eq_self_of_exhausted (by omega) hb2
      exact hne (by rw [← e1, ← e2, hmeq])
  | succ fuel ih =>
      intro L hml hmeq
      show lookupN L (if chunk h1 L = chunk h2 L then _ else _) j = _
      by_cases hc : chunk h1 L = chunk h2 L
      · rw [if_pos hc, lookupN_branch, lookupCh_cons]
        by_cases hcj : chunk h1 L = chunk j.hashv L
        · rw [if_pos hcj]
          have hmeq' : h1 % 32 ^ (L + 1) = h2 % 32 ^ (L + 1) := by
            rw [mod_break, mod_break, hmeq, hc]
          rw [ih (L + 1) (by omega) hmeq']
          rw [lookupN_flat_level hh1 (L + 1) L, lookupN_flat_level hh2 (L + 1) L]
        · rw [if_neg hcj, lookupCh_nil]
          have hj1 : j.hashv ≠ h1 := fun he => hcj (by rw [he])
          have hj2 : j.hashv ≠ h2 := fun he => hcj (by rw [he, hc])
          rw [if_neg hj1, if_neg hj2]
      · rw [if_neg hc, lookupN_branch, lookupCh_cons]
        by_cases hcj1 : chunk h1 L = chunk j.hashv L
        · rw [if_pos hcj1, lookupN_flat_level hh1 (L + 1) L]
          by_cases hj1 : j.hashv = h1
          · rw [if_pos hj1]
          · rw [if_neg hj1, lookupN_flat_none hh1 hj1]
            have hj2 : j.hashv ≠ h2 := by
              intro he
              exact hc (by rw [hcj1, he])
            rw [if_neg hj2]
        · rw [if_neg hcj1, lookupCh_cons]
          have hj1 : j.hashv ≠ h1 := fun he => hcj1 (by rw [he])
          rw [if_neg hj1]
          by_cases hcj2 : chunk h2 L = chunk j.hashv L
          · rw [if_pos hcj2, lookupN_flat_level hh2 (L + 1) L]
            by_cases hj2 : j.hashv = h2
            · rw [if_pos hj2]
            · rw [if_neg hj2, lookupN_flat_none hh2 hj2]
          · rw [if_neg hcj2, lookupCh_nil]
            have hj2 : j.hashv ≠ h2 := fun he => hcj2 (by rw [he])
            rw [if_neg hj2]

/-- A flat node with sound content is well formed at any level whose prefix
its hash spells. -/
theorem WF_flat {V : Type} {n : Node V} {h : Nat} (hf : FlatOK n) (hh : HashOf n h)
    {L p : Nat} (hL : L ≤ maxLevels) (hp : h % 32 ^ L = p) :
    WF L p n := by
  have hplt : p < 32 ^ L := by rw [← hp]; exact Nat.mod_lt _ (pow32_pos L)
  cases n with
  | leaf k v => exact WF.leaf hplt hL (by rw [show k.hashv = h from hh]; exact hp)
  | collision tag bucket =>
      obtain ⟨hbt, hkeys, hnd⟩ := hf
      exact WF.collision hplt hL hbt (by rw [show tag = h from hh]; exact hp) hkeys hnd
  | branch children => cases hf

/-- A well-formed flat node has sound content. -/
theorem FlatOK_of_WF {V : Type} {n : Node V} {h L p : Nat} (hwf : WF L p n)
    (hh : HashOf n h) : FlatOK n := by
  cases n with
  | leaf k v => trivial
  | collision tag bucket =>
      cases hwf with
      | collision hp hL hbt htag hkeys hnd => exact ⟨hbt, hkeys, hnd⟩
  | branch children => cases hh

/-- A split of two flat nodes with sound content is well formed. -/
theorem WF_splitNodes {V : Type} {n1 n2 : Node V} {h1 h2 : Nat}
    (hf1 : FlatOK n1) (hf2 : FlatOK n2) (hh1 : HashOf n1 h1) (hh2 : HashOf n2 h2)
    (hb1 : h1 < 2 ^ 64) (hb2 : h2 < 2 ^ 64) (hne : h1 ≠ h2) :
    ∀ fuel L p, maxLevels ≤ L + fuel → h1 % 32 ^ L = p → h2 % 32 ^ L = p →
      WF L p (splitNodes fuel L n1 h1 n2 h2) := by
  intro fuel
  induction fuel with
  | zero =>
      intro L p hml h1p h2p
      exfalso
      have e1 : h1 % 32 ^ L = h1 := mod_eq_self_of_exhausted (by omega) hb1
      have e2 : h2 % 32 ^ L = h2 := mod_eq_self_of_exhausted (by omega) hb2
      exact hne (by rw [← e1, ← e2, h1p, h2p])
  | succ fuel ih =>
      intro L p hml h1p h2p
      have hplt : p < 32 ^ L := by rw [← h1p]; exact Nat.mod_lt _ (pow32_pos L)
      have hLlt : L < maxLevels := by
        by_contra hge
        have e1 : h1 % 32 ^ L = h1 := mod_eq_self_of_exhausted (by omega) hb1
        have e2 : h2 % 32 ^ L = h2 := mod_eq_self_of_exhausted (by omega) hb2
        exact hne (by rw [← e1, ← e2, h1p, h2p])
      show WF L p (if chunk h1 L = chunk h2 L then _ else _)
      by_cases hc : chunk h1 L = chunk h2 L
      · rw [if_pos hc]
        refine WF.branch hplt hLlt (by simp) ?_
        intro q hq
        rw [List.mem_singleton.mp hq]
        exact ih (L + 1) (p + chunk h1 L * 32 ^ L) (by omega)
          (by rw [mod_break, h1p]) (by rw [mod_break, h2p, ← hc])
      · rw [if_neg hc]
        refine WF.branch hplt hLlt (by simp [hc]) ?_
        intro q hq
        rcases List.mem_cons.mp hq with he | hq2
        · rw [he]
          exact WF_flat hf1 hh1 (by omega) (by rw [mod_break, h1p])
        · rw [List.mem_singleton.mp hq2]
          exact WF_flat hf2 hh2 (by omega) (by rw [mod_break, h2p])

theorem insertN_leaf {V : Type} (L : Nat) (k' : Key) (v' : V) (k : Key) (v : V) :
    insertN L (.leaf k' v') k v =
      if k' = k then .leaf k v
      else if k'.hashv = k.hashv then .collision k.hashv [(k', v'), (k, v)]
      else splitNodes (maxLevels - L) L (.leaf k' v') k'.hashv (.leaf k v) k.hashv := rfl

theorem insertN_collision {V : Type} (L tag : Nat) (bucket : List (Key × V))
    (k : Key) (v : V) :
    insertN L (.collision tag bucket) k v =
      if k.hashv = tag then .collision tag (bucketInsert bucket k v)
      else splitNodes (maxLevels - L) L (.collision tag bucket) tag (.leaf k v) k.hashv :=
  rfl

theorem insertN_branch {V : Type} (L : Nat) (children : List (Nat × Node V))
    (k : Key) (v : V) :
    insertN L (.branch children) k v = .branch (insertCh L children (chunk k.hashv L) k v) :=
  rfl

theorem insertCh_nil {V : Type} (L c : Nat) (k : Key) (v : V) :
    insertCh L ([] : List (Nat × Node V)) c k v = [(c, .leaf k v)] := rfl

theorem insertCh_cons {V : Type} (L : Nat) (c' : Nat) (ch : Node V)
    (rest : List (Nat × Node V)) (c : Nat) (k : Key) (v : V) :
    insertCh L ((c', ch) :: rest) c k v =
      if c' = c then (c', insertN (L + 1) ch k v) :: rest
      else (c', ch) :: insertCh L rest c k v := rfl

theorem find?_bucketInsert_self {V : Type} (b : List (Key × V)) (k : Key) (v : V) :
    (bucketInsert b k v).find? (fun q => q.1 == k) = some (k, v) := by
  induction b with
  | nil => simp [bucketInsert]
  | cons q rest ih =>
      obtain ⟨k', v'⟩ := q
      by_cases hk : k' = k
      · simp [bucketInsert, hk]
      · simp [bucketInsert, hk, beq_false_of_ne hk, ih]

theorem find?_bucketInsert_ne {V : Type} (b : List (Key × V)) (k : Key) (v : V)
    {j : Key} (hj : j ≠ k) :
    (bucketInsert b k v).find? (fun q => q.1 == j) = b.find? (fun q => q.1 == j) := by
  induction b with
  | nil => simp [bucketInsert, beq_false_of_ne (Ne.symm hj)]
  | cons q rest ih =>
      obtain ⟨k', v'⟩ := q
      by_cases hk : k' = k
      · subst hk
        simp [bucketInsert, beq_false_of_ne (Ne.symm hj)]
      · simp only [bucketInsert, if_neg hk, List.find?_cons]
        cases hkj : (k' == j) <;> simp [ih]

theorem mem_bucketInsert {V : Type} {b : List (Key × V)} {k : Key} {v : V}
    {q : Key × V} (hq : q ∈ bucketInsert b k v) : q = (k, v) ∨ q ∈ b := by
  induction b with
  | nil => simpa [bucketInsert] using hq
  | cons q' rest ih =>
      obtain ⟨k', v'⟩ := q'
      by_cases hk : k' = k
      · rw [bucketInsert, if_pos hk] at hq
        rcases List.mem_cons.mp hq with he | hq2
        · exact Or.inl he
        · exact Or.inr (List.mem_cons_of_mem _ hq2)
      · rw [bucketInsert, if_neg hk] at hq
        rcases List.mem_cons.mp hq with he | hq2
        · exact Or.inr (he ▸ List.mem_cons_self _ _)
        · rcases ih hq2 with h | h
          · exact Or.inl h
          · exact Or.inr (List.mem_cons_of_mem _ h)

theorem bucketInsert_map_fst {V : Type} (b : List (Key × V)) (k : Key) (v : V) :
    (bucketInsert b k v).map Prod.fst =
      if k ∈ b.map Prod.fst then b.map Prod.fst else b.map Prod.fst ++ [k] := by
  induction b with
  | nil => simp [bucketInsert]
  | cons q rest ih =>
      obtain ⟨k', v'⟩ := q
      by_cases hk : k' = k
      · simp [bucketInsert, hk]
      · simp only [bucketInsert, if_neg hk, List.map_cons, ih]
        by_cases hmem : k ∈ rest.map Prod.fst
        · simp [hmem, Ne.symm hk]
        · simp [hmem, Ne.symm hk]

theorem bucketInsert_nodup {V : Type} {b : List (Key × V)}
    (hnd : (b.map Prod.fst).Nodup) (k : Key) (v : V) :
    ((bucketInsert b k v).map Prod.fst).Nodup := by
  rw [bucketInsert_map_fst]
  by_cases hmem : k ∈ b.map Prod.fst
  · rwa [if_pos hmem]
  · rw [if_neg hmem]
    simp [List.nodup_append, hnd, hmem]

theorem insertCh_map_fst {V : Type} (L : Nat) (children : List (Nat × Node V))
    (c : Nat) (k : Key) (v : V) :
    (insertCh L children c k v).map Prod.fst =
      if c ∈ children.map Prod.fst then children.map Prod.fst
      else children.map Prod.fst ++ [c] := by
  induction children with
  | nil => simp [insertCh_nil]
  | cons q rest ih =>
      obtain ⟨c', ch⟩ := q
      by_cases hc : c' = c
      · simp [insertCh_cons, hc]
      · simp only [insertCh_cons, if_neg hc, List.map_cons, ih]
        by_cases hmem : c ∈ rest.map Prod.fst
        · simp [hmem, Ne.symm hc]
        · simp [hmem, Ne.symm hc]

theorem insertCh_nodup {V : Type} {children : List (Nat × Node V)}
    (hnd : (children.map Prod.fst).Nodup) (L c : Nat) (k : Key) (v : V) :
    ((insertCh L children c k v).map Prod.fst).Nodup := by
  rw [insertCh_map_fst]
  by_cases hmem : c ∈ children.map Prod.fst
  · rwa [if_pos hmem]
  · rw [if_neg hmem]
    simp [List.nodup_append, hnd, hmem]

theorem mem_insertCh {V : Type} {L : Nat} {children : List (Nat × Node V)}
    {c : Nat} {k : Key} {v : V} {q : Nat × Node V}
    (hq : q ∈ insertCh L children c k v) :
    q ∈ children ∨ q = (c, Node.leaf k v) ∨
      ∃ ch, (c, ch) ∈ children ∧ q = (c, insertN (L + 1) ch k v) := by
  induction children with
  | nil =>
      rw [insertCh_nil] at hq
      exact Or.inr (Or.inl (List.mem_singleton.mp hq))
  | cons q' rest ih =>
      obtain ⟨c', ch'⟩ := q'
      by_cases hc : c' = c
      · subst hc
        rw [insertCh_cons, if_pos rfl] at hq
        rcases List.mem_cons.mp hq with he | hq2
        · exact Or.inr (Or.inr ⟨ch', List.mem_cons_self _ _, he⟩)
        · exact Or.inl (List.mem_cons_of_mem _ hq2)
      · rw [insertCh_cons, if_neg hc] at hq
        rcases List.mem_cons.mp hq with he | hq2
        · exact Or.inl (he ▸ List.mem_cons_self _ _)
        · rcases ih hq2 with h | h | ⟨ch, hch, he⟩
          · exact Or.inl (List.mem_cons_of_mem _ h)
          · exact Or.inr (Or.inl h)
          · exact Or.inr (Or.inr ⟨ch, List.mem_cons_of_mem _ hch, he⟩)

theorem lookupCh_insertCh {V : Type} {k : Key} {v : V} {j : Key} (L c cj : Nat)
    (children : List (Nat × Node V))
    (hrec : ∀ q ∈ children, q.1 = c →
      lookupN (L + 1) (insertN (L + 1) q.2 k v) j =
        if j = k then some v else lookupN (L + 1) q.2 j) :
    lookupCh L (insertCh L children c k v) cj j =
      if cj = c then (if j = k then some v else lookupCh L children cj j)
      else lookupCh L children cj j := by
  induction children with
  | nil =>
      rw [insertCh_nil, lookupCh_cons, lookupCh_nil, lookupN_leaf]
      by_cases hc : c = cj
      · subst hc
        by_cases hkj : k = j
        · subst hkj
          simp
        · simp [hkj, Ne.symm hkj]
      · rw [if_neg hc, if_neg (Ne.symm hc)]
  | cons q rest ih =>
      obtain ⟨c', ch⟩ := q
      by_cases hc' : c' = c
      · subst hc'
        rw [insertCh_cons, if_pos rfl, lookupCh_cons, lookupCh_cons]
        by_cases hcj : c' = cj
        · rw [if_pos hcj, if_pos hcj, if_pos hcj.symm]
          exact hrec (c', ch) (List.mem_cons_self _ _) rfl
        · rw [if_neg hcj, if_neg hcj, if_neg (Ne.symm hcj)]
      · rw [insertCh_cons, if_neg hc', lookupCh_cons, lookupCh_cons]
        by_cases hcj : c' = cj
        · rw [if_pos hcj, if_pos hcj]
          have hne : cj ≠ c := fun he => hc' (hcj.trans he)
          rw [if_neg hne]
        · rw [if_neg hcj, if_neg hcj]
          exact ih (fun q hq hqc => hrec q (List.mem_cons_of_mem _ hq) hqc)

/-- Modelled-from-the-spec insert is observably the functional map update:
looking up `j` after inserting `(k, v)` yields `v` at `k` and is otherwise
unchanged. -/
theorem lookupN_insertN {V : Type} {k : Key} {v : V} {j : Key} :
    ∀ {L p : Nat} {n : Node V}, WF L p n → k.hashv % 32 ^ L = p →
      lookupN L (insertN L n k v) j = if j = k then some v else lookupN L n j := by
  intro L p n hwf
  induction hwf with
  | @leaf L p kx vx hplt hLle hkp =>
      intro hk
      rw [insertN_leaf]
      by_cases hkk : kx = k
      · subst hkk
        rw [if_pos rfl, lookupN_leaf, lookupN_leaf]
        by_cases hje : kx = j
        · subst hje
          simp
        · simp [hje, Ne.symm hje]
      · rw [if_neg hkk]
        by_cases hh : kx.hashv = k.hashv
        · rw [if_pos hh, lookupN_collision, lookupN_leaf]
          by_cases hjk : j = k
          · subst hjk
            simp [hh.symm, beq_false_of_ne hkk]
          · rw [if_neg hjk]
            by_cases hjx : kx = j
            · subst hjx
              simp [hh]
            · by_cases hjh : j.hashv = kx.hashv
              · rw [if_pos (hjh.trans hh), if_neg hjx]
                simp [beq_false_of_ne hjx, beq_false_of_ne (Ne.symm hjk)]
              · rw [if_neg (fun he => hjh (he.trans hh.symm)), if_neg hjx]
        · rw [if_neg hh,
            @lookupN_splitNodes V (.leaf kx vx) (.leaf k v) kx.hashv k.hashv rfl rfl
              (hashv_lt kx) (hashv_lt k) hh j (maxLevels - L) L (by omega)
              (by rw [hkp, hk])]
          rw [lookupN_leaf, lookupN_leaf]
          by_cases hjk : j = k
          · subst hjk
            have hne : j.hashv ≠ kx.hashv := fun he => hh he.symm
            simp [hne, fun he : kx = j => hh (by rw [he])]
          · rw [if_neg hjk]
            by_cases hjx : j.hashv = kx.hashv
            · rw [if_pos hjx]
            · have hxj : kx ≠ j := fun he => hjx (by rw [he])
              rw [if_neg hjx, if_neg hxj]
              by_cases hjh : j.hashv = k.hashv
              · rw [if_pos hjh, if_neg (Ne.symm hjk)]
              · rw [if_neg hjh]
  | @collision L p tag bucket hplt hLle hbt htag hkeys hnd =>
      intro hk
      rw [insertN_collision]
      by_cases hh : k.hashv = tag
      · rw [if_pos hh, lookupN_collision, lookupN_collision]
        by_cases hjk : j = k
        · subst hjk
          rw [if_pos rfl, if_pos hh, find?_bucketInsert_self]
          rfl
        · rw [if_neg hjk, find?_bucketInsert_ne bucket k v hjk]
      · rw [if_neg hh,
          @lookupN_splitNodes V (.collision tag bucket) (.leaf k v) tag k.hashv rfl rfl
            hbt (hashv_lt k) (fun he => hh he.symm) j (maxLevels - L) L (by omega)
            (by rw [htag, hk])]
        rw [lookupN_leaf, lookupN_collision]
        by_cases hjk : j = k
        · subst hjk
          simp [hh]
        · rw [if_neg hjk]
          by_cases hjt : j.hashv = tag
          · rw [if_pos hjt, if_pos hjt]
          · rw [if_neg hjt, if_neg hjt]
            by_cases hjh : j.hashv = k.hashv
            · rw [if_pos hjh, if_neg (Ne.symm hjk)]
            · rw [if_neg hjh]
  | @branch L p children hplt hLlt hnd hch ih =>
      intro hk
      rw [insertN_branch, lookupN_branch, lookupN_branch]
      rw [lookupCh_insertCh L (chunk k.hashv L) (chunk j.hashv L) children
        (fun q hq hqc => ih q hq (by rw [mod_break, hk, hqc]))]
      by_cases hjk : j = k
      · subst hjk
        rw [if_pos rfl, if_pos rfl]
      · by_cases hcj : chunk j.hashv L = chunk k.hashv L
        · rw [if_pos hcj, if_neg hjk]
        · rw [if_neg hcj, if_neg hjk]

theorem prefix_lt_pow {p c L : Nat} (hp : p < 32 ^ L) (hc : c < 32) :
    p + c * 32 ^ L < 32 ^ (L + 1) := by
  have he : (32 : Nat) ^ (L + 1) = 32 ^ L * 32 := by ring
  nlinarith

/-- Insert preserves well-formedness. -/
theorem WF_insertN {V : Type} {k : Key} {v : V} :
    ∀ {L p : Nat} {n : Node V}, WF L p n → k.hashv % 32 ^ L = p →
      WF L p (insertN L n k v) := by
  intro L p n hwf
  induction hwf with
  | @leaf L p kx vx hplt hLle hkp =>
      intro hk
      rw [insertN_leaf]
      by_cases hkk : kx = k
      · rw [if_pos hkk]
        exact WF.leaf hplt hLle hk
      · rw [if_neg hkk]
        by_cases hh : kx.hashv = k.hashv
        · rw [if_pos hh]
          refine WF.collision hplt hLle (hashv_lt k) hk ?_ ?_
          · intro q hq
            rcases List.mem_cons.mp hq with he | hq2
            · rw [he]
              exact hh
            · rw [List.mem_singleton.mp hq2]
          · simp [hkk]
        · rw [if_neg hh]
          exact @WF_splitNodes V (.leaf kx vx) (.leaf k v) kx.hashv k.hashv
            trivial trivial rfl rfl (hashv_lt kx) (hashv_lt k) hh
            (maxLevels - L) L p (by omega) hkp hk
  | @collision L p tag bucket hplt hLle hbt htag hkeys hnd =>
      intro hk
      rw [insertN_collision]
      by_cases hh : k.hashv = tag
      · rw [if_pos hh]
        refine WF.collision hplt hLle hbt htag ?_ (bucketInsert_nodup hnd k v)
        intro q hq
        rcases mem_bucketInsert hq with he | hq2
        · rw [he]
          exact hh
        · exact hkeys q hq2
      · rw [if_neg hh]
        exact @WF_splitNodes V (.collision tag bucket) (.leaf k v) tag k.hashv
          ⟨hbt, hkeys, hnd⟩ trivial rfl rfl hbt (hashv_lt k) (fun he => hh he.symm)
          (maxLevels - L) L p (by omega) htag hk
  | @branch L p children hplt hLlt hnd hch ih =>
      intro hk
      rw [insertN_branch]
      refine WF.branch hplt hLlt (insertCh_nodup hnd L (chunk k.hashv L) k v) ?_
      intro q hq
      rcases mem_insertCh hq with hq1 | he | ⟨ch, hch2, he⟩
      · exact hch q hq1
      · rw [he]
        exact WF.leaf (prefix_lt_pow hplt (chunk_lt _ _)) (by omega)
          (by rw [mod_break, hk])
      · rw [he]
        exact ih (chunk k.hashv L, ch) hch2 (by rw [mod_break, hk])

theorem entriesN_leaf {V : Type} (k : Key) (v : V) :
    entriesN (.leaf k v) = [(k, v)] := rfl

theorem entriesN_collision {V : Type} (tag : Nat) (bucket : List (Key × V)) :
    entriesN (.collision tag bucket) = bucket := rfl

theorem entriesN_branch {V : Type} (children : List (Nat × Node V)) :
    entriesN (.branch children) = entriesCh children := rfl

theorem entriesCh_nil {V : Type} : entriesCh ([] : List (Nat × Node V)) = [] := rfl

theorem entriesCh_cons {V : Type} (c : Nat) (ch : Node V) (rest : List (Nat × Node V)) :
    entriesCh ((c, ch) :: rest) = entriesN ch ++ entriesCh rest := rfl

theorem mem_entriesCh {V : Type} {children : List (Nat × Node V)} {q : Key × V} :
    q ∈ entriesCh children ↔ ∃ c ∈ children, q ∈ entriesN c.2 := by
  induction children with
  | nil => simp [entriesCh_nil]
  | cons c rest ih =>
      obtain ⟨cc, ch⟩ := c
      rw [entriesCh_cons]
      simp only [List.mem_append, ih, List.mem_cons]
      constructor
      · rintro (h | ⟨c', hc', hq⟩)
        · exact ⟨(cc, ch), Or.inl rfl, h⟩
        · exact ⟨c', Or.inr hc', hq⟩
      · rintro ⟨c', hc' | hc', hq⟩
        · rw [hc'] at hq
          exact Or.inl hq
        · exact Or.inr ⟨c', hc', hq⟩

/-- Every entry below a well-formed node carries the node's hash prefix. -/
theorem entries_hash_prefix {V : Type} {j : Key} {w : V} :
    ∀ {L p : Nat} {n : Node V}, WF L p n → (j, w) ∈ entriesN n →
      j.hashv % 32 ^ L = p := by
  intro L p n hwf
  induction hwf with
  | @leaf L p kx vx hplt hLle hkp =>
      intro hmem
      rw [entriesN_leaf, List.mem_singleton] at hmem
      have : j = kx := congrArg Prod.fst hmem
      rw [this]
      exact hkp
  | @collision L p tag bucket hplt hLle hbt htag hkeys hnd =>
      intro hmem
      rw [entriesN_collision] at hmem
      have := hkeys (j, w) hmem
      simp only at this
      rw [this]
      exact htag
  | @branch L p children hplt hLlt hnd hch ih =>
      intro hmem
      rw [entriesN_branch] at hmem
      obtain ⟨c, hc, hq⟩ := mem_entriesCh.mp hmem
      have h1 := ih c hc hq
      exact (prefix_inj hplt h1).1

/-- Scanning a duplicate-free child array finds a member slot. -/
theorem lookupCh_of_mem_nodup {V : Type} {children : List (Nat × Node V)}
    {c : Nat} {ch : Node V} (hmem : (c, ch) ∈ children)
    (hnd : (children.map Prod.fst).Nodup) (L : Nat) (j : Key) :
    lookupCh L children c j = lookupN (L + 1) ch j := by
  induction children with
  | nil => cases hmem
  | cons q rest ih =>
      obtain ⟨c', ch'⟩ := q
      have hnd' : (∀ x : Node V, (c', x) ∉ rest) ∧ (List.map Prod.fst rest).Nodup := by
        simpa using hnd
      rcases List.mem_cons.mp hmem with he | hmem2
      · obtain ⟨he1, he2⟩ := Prod.mk.injEq .. ▸ he.symm
        rw [lookupCh_cons, if_pos he1, he2]
      · have hne : c' ≠ c := by
          intro he
          subst he
          exact hnd'.1 ch hmem2
        rw [lookupCh_cons, if_neg hne]
        exact ih hmem2 hnd'.2

/-- A successful child-array scan exposes the slot it went through. -/
theorem lookupCh_some {V : Type} {children : List (Nat × Node V)} {c L : Nat}
    {j : Key} {w : V} (hl : lookupCh L children c j = some w) :
    ∃ ch, (c, ch) ∈ children ∧ lookupN (L + 1) ch j = some w := by
  induction children with
  | nil => cases hl
  | cons q rest ih =>
      obtain ⟨c', ch'⟩ := q
      rw [lookupCh_cons] at hl
      by_cases hc : c' = c
      · rw [if_pos hc] at hl
        exact ⟨ch', hc ▸ List.mem_cons_self _ _, hl⟩
      · rw [if_neg hc] at hl
        obtain ⟨ch, hmem, he⟩ := ih hl
        exact ⟨ch, List.mem_cons_of_mem _ hmem, he⟩

/-- Characterisation of stored entries by lookup, under well-formedness. -/
theorem mem_entriesN_iff {V : Type} {j : Key} {w : V} :
    ∀ {L p : Nat} {n : Node V}, WF L p n →
      ((j, w) ∈ entriesN n ↔ lookupN L n j = some w) := by
  intro L p n hwf
  induction hwf with
  | @leaf L p kx vx hplt hLle hkp =>
      rw [entriesN_leaf, lookupN_leaf, List.mem_singleton]
      constructor
      · intro he
        obtain ⟨he1, he2⟩ := Prod.mk.injEq .. ▸ he
        rw [if_pos he1.symm, he2]
      · intro he
        by_cases hx : kx = j
        · rw [if_pos hx] at he
          obtain rfl := Option.some.injEq .. ▸ he
          rw [hx]
        · rw [if_neg hx] at he
          cases he
  | @collision L p tag bucket hplt hLle hbt htag hkeys hnd =>
      rw [entriesN_collision, lookupN_collision]
      constructor
      · intro hmem
        have hjt : j.hashv = tag := hkeys (j, w) hmem
        rw [if_pos hjt, find?_key_of_mem_nodup hmem hnd]
        rfl
      · intro hl
        by_cases hjt : j.hashv = tag
        · rw [if_pos hjt] at hl
          obtain ⟨q, hfq, hq2⟩ := Option.map_eq_some'.mp hl
          obtain ⟨hqmem, hq1⟩ := find?_key_some hfq
          have : q = (j, w) := Prod.ext hq1 hq2
          exact this ▸ hqmem
        · rw [if_neg hjt] at hl
          cases hl
  | @branch L p children hplt hLlt hnd hch ih =>
      rw [entriesN_branch, lookupN_branch]
      constructor
      · intro hmem
        obtain ⟨c, hc, hq⟩ := mem_entriesCh.mp hmem
        have hpre := entries_hash_prefix (hch c hc) hq
        have hcj : chunk j.hashv L = c.1 := (prefix_inj hplt hpre).2
        obtain ⟨c1, ch⟩ := c
        rw [hcj, lookupCh_of_mem_nodup hc hnd]
        exact (ih (c1, ch) hc).mp hq
      · intro hl
        obtain ⟨ch, hmem, he⟩ := lookupCh_some hl
        exact mem_entriesCh.mpr ⟨(chunk j.hashv L, ch), hmem,
          (ih (chunk j.hashv L, ch) hmem).mpr he⟩

/-- The keys stored below a well-formed node are pairwise distinct. -/
theorem entriesN_keys_nodup {V : Type} :
    ∀ {L p : Nat} {n : Node V}, WF L p n → ((entriesN n).map Prod.fst).Nodup := by
  intro L p n hwf
  induction hwf with
  | @leaf L p kx vx hplt hLle hkp => simp [entriesN_leaf]
  | @collision L p tag bucket hplt hLle hbt htag hkeys hnd =>
      simpa [entriesN_collision] using hnd
  | @branch L p children hplt hLlt hnd hch ih =>
      rw [entriesN_branch]
      have inner : ∀ cs : List (Nat × Node V),
          (∀ q ∈ cs, WF (L + 1) (p + q.1 * 32 ^ L) q.2) →
          (∀ q ∈ cs, ((entriesN q.2).map Prod.fst).Nodup) →
          (cs.map Prod.fst).Nodup →
          ((entriesCh cs).map Prod.fst).Nodup := by
        intro cs
        induction cs with
        | nil =>
            intro _ _ _
            simp [entriesCh_nil]
        | cons q rest ihl =>
            intro hwfs hnds hndc
            obtain ⟨c, ch⟩ := q
            have hndc' : (∀ x : Node V, (c, x) ∉ rest) ∧
                (List.map Prod.fst rest).Nodup := by simpa using hndc
            rw [entriesCh_cons, List.map_append, List.nodup_append]
            refine ⟨hnds (c, ch) (List.mem_cons_self _ _),
              ihl (fun q hq => hwfs q (List.mem_cons_of_mem _ hq))
                (fun q hq => hnds q (List.mem_cons_of_mem _ hq)) hndc'.2, ?_⟩
            intro j hj1 hj2
            obtain ⟨q1, hmem1, he1⟩ := List.mem_map.mp hj1
            obtain ⟨q2, hmem2, he2⟩ := List.mem_map.mp hj2
            obtain ⟨c', ch'⟩ := mem_entriesCh.mp hmem2
            obtain ⟨hc'mem, hq2mem⟩ := ch'
            obtain ⟨j1, w1⟩ := q1
            obtain ⟨j2, w2⟩ := q2
            simp only at he1 he2
            subst he1
            subst he2
            have hp1 := entries_hash_prefix (hwfs (c, ch) (List.mem_cons_self _ _)) hmem1
            have hp2 := entries_hash_prefix
              (hwfs c' (List.mem_cons_of_mem _ hc'mem)) hq2mem
            have hcc : c = c'.1 := by
              have he : p + c * 32 ^ L = p + c'.1 * 32 ^ L := by rw [← hp1, hp2]
              exact Nat.eq_of_mul_eq_mul_right (pow32_pos L) (Nat.add_left_cancel he)
            obtain ⟨cc, chc⟩ := c'
            simp only at hcc
            subst hcc
            exact hndc'.1 chc hc'mem
      exact inner children hch (fun q hq => ih q hq) hnd

/-- The key set of a node, as a finite set. -/
def keysetN {V : Type} (n : Node V) : Finset Key :=
  ((entriesN n).map Prod.fst).toFinset

theorem length_entriesN_eq_card {V : Type} {L p : Nat} {n : Node V} (hwf : WF L p n) :
    (entriesN n).length = (keysetN n).card := by
  rw [keysetN, List.toFinset_card_of_nodup (entriesN_keys_nodup hwf), List.length_map]

theorem mem_keysetN_iff {V : Type} {L p : Nat} {n : Node V} (hwf : WF L p n) (j : Key) :
    j ∈ keysetN n ↔ (lookupN L n j).isSome := by
  rw [keysetN, List.mem_toFinset, List.mem_map]
  constructor
  · rintro ⟨⟨j1, w⟩, hmem, he⟩
    simp only at he
    subst he
    rw [(mem_entriesN_iff hwf).mp hmem]
    rfl
  · intro hs
    obtain ⟨w, hw⟩ := Option.isSome_iff_exists.mp hs
    exact ⟨(j, w), (mem_entriesN_iff hwf).mpr hw, rfl⟩

theorem removeN_leaf {V : Type} (L : Nat) (k' : Key) (v' : V) (k : Key) :
    removeN L (.leaf k' v') k = if k' = k then some none else none := rfl

theorem removeN_collision {V : Type} (L tag : Nat) (bucket : List (Key × V)) (k : Key) :
    removeN L (.collision tag bucket) k =
      if k.hashv = tag then
        if bucket.any (fun q => q.1 == k) then
          some (collapseBucket tag (bucketRemove bucket k))
        else none
      else none := rfl

theorem removeN_branch {V : Type} (L : Nat) (children : List (Nat × Node V)) (k : Key) :
    removeN L (.branch children) k =
      match removeCh L children (chunk k.hashv L) k with
      | none => none
      | some children' => some (normalizeBranch children') := rfl

theorem removeCh_nil {V : Type} (L c : Nat) (k : Key) :
    removeCh L ([] : List (Nat × Node V)) c k = none := rfl

theorem removeCh_cons {V : Type} (L : Nat) (c' : Nat) (ch : Node V)
    (rest : List (Nat × Node V)) (c : Nat) (k : Key) :
    removeCh L ((c', ch) :: rest) c k =
      if c' = c then
        match removeN (L + 1) ch k with
        | none => none
        | some none => some rest
        | some (some ch') => some ((c', ch') :: rest)
      else
        match removeCh L rest c k with
        | none => none
        | some rest' => some ((c', ch) :: rest') := rfl

theorem find?_bucketRemove_self {V : Type} (b : List (Key × V)) (k : Key) :
    (bucketRemove b k).find? (fun q => q.1 == k) = none := by
  apply List.find?_eq_none.mpr
  intro q hq
  have hf := (List.mem_filter.mp hq).2
  simpa using hf

theorem find?_bucketRemove_ne {V : Type} (b : List (Key × V)) (k : Key) {j : Key}
    (hj : j ≠ k) :
    (bucketRemove b k).find? (fun q => q.1 == j) = b.find? (fun q => q.1 == j) := by
  induction b with
  | nil => rfl
  | cons q rest ih =>
      obtain ⟨k', v'⟩ := q
      by_cases hk : k' = k
      · subst hk
        have : bucketRemove ((k', v') :: rest) k' = bucketRemove rest k' := by
          simp [bucketRemove]
        rw [this, ih, List.find?_cons, beq_false_of_ne (fun he => hj (he.symm : j = k'))]
      · have : bucketRemove ((k', v') :: rest) k = (k', v') :: bucketRemove rest k := by
          simp [bucketRemove, hk]
        rw [this, List.find?_cons, List.find?_cons]
        cases hkj : (k' == j)
        · simpa using ih
        · rfl

theorem mem_bucketRemove {V : Type} {b : List (Key × V)} {k : Key} {q : Key × V}
    (hq : q ∈ bucketRemove b k) : q ∈ b ∧ q.1 ≠ k := by
  have := List.mem_filter.mp hq
  refine ⟨this.1, ?_⟩
  simpa using this.2

theorem mem_bucketRemove_of {V : Type} {b : List (Key × V)} {k : Key} {q : Key × V}
    (hq : q ∈ b) (hne : q.1 ≠ k) : q ∈ bucketRemove b k := by
  refine List.mem_filter.mpr ⟨hq, ?_⟩
  simpa using hne

theorem bucketRemove_keys_sublist {V : Type} (b : List (Key × V)) (k : Key) :
    ((bucketRemove b k).map Prod.fst).Sublist (b.map Prod.fst) :=
  List.Sublist.map _ (List.filter_sublist b)

theorem any_key_iff_exists {V : Type} (b : List (Key × V)) (k : Key) :
    b.any (fun q => q.1 == k) = true ↔ ∃ q ∈ b, q.1 = k := by
  rw [List.any_eq_true]
  constructor
  · rintro ⟨q, hq, he⟩
    exact ⟨q, hq, by simpa using he⟩
  · rintro ⟨q, hq, he⟩
    exact ⟨q, hq, by simpa using he⟩

/-- Remove signals `NotFound` exactly when lookup misses. -/
theorem removeN_none_iff {V : Type} {k : Key} :
    ∀ {L p : Nat} {n : Node V}, WF L p n →
      (removeN L n k = none ↔ lookupN L n k = none) := by
  intro L p n hwf
  induction hwf with
  | @leaf L p kx vx hplt hLle hkp =>
      rw [removeN_leaf, lookupN_leaf]
      by_cases hx : kx = k
      · simp [hx]
      · simp [hx]
  | @collision L p tag bucket hplt hLle hbt htag hkeys hnd =>
      rw [removeN_collision, lookupN_collision]
      by_cases hh : k.hashv = tag
      · rw [if_pos hh, if_pos hh]
        by_cases hany : (bucket.any fun q => q.1 == k) = true
        · rw [if_pos hany]
          obtain ⟨q, hq, he⟩ := (any_key_iff_exists bucket k).mp hany
          have hfind := find?_key_of_mem_nodup
            (show (k, q.2) ∈ bucket from by
              obtain ⟨q1, q2⟩ := q
              simp only at he
              subst he
              exact hq) hnd
          simp [hfind]
        · rw [if_neg hany]
          have hfind : bucket.find? (fun q => q.1 == k) = none := by
            apply List.find?_eq_none.mpr
            intro q hq
            intro hqk
            exact hany ((any_key_iff_exists bucket k).mpr ⟨q, hq, by simpa using hqk⟩)
          simp [hfind]
      · rw [if_neg hh, if_neg hh]
        simp
  | @branch L p children hplt hLlt hnd hch ih =>
      rw [removeN_branch, lookupN_branch]
      have inner : ∀ cs : List (Nat × Node V),
          (∀ q ∈ cs, (removeN (L + 1) q.2 k = none ↔ lookupN (L + 1) q.2 k = none)) →
          ((removeCh L cs (chunk k.hashv L) k = none) ↔
            lookupCh L cs (chunk k.hashv L) k = none) := by
        intro cs
        induction cs with
        | nil =>
            intro _
            simp [removeCh_nil, lookupCh_nil]
        | cons q rest ihl =>
            intro hmem
            obtain ⟨c', ch⟩ := q
            rw [removeCh_cons, lookupCh_cons]
            by_cases hc : c' = chunk k.hashv L
            · rw [if_pos hc, if_pos hc]
              cases hrn : removeN (L + 1) ch k with
              | none => simp [(hmem (c', ch) (List.mem_cons_self _ _)).mp hrn]
              | some rr =>
                  have : ¬lookupN (L + 1) ch k = none := by
                    intro hl
                    rw [(hmem (c', ch) (List.mem_cons_self _ _)).mpr hl] at hrn
                    cases hrn
                  cases rr <;> simpa using this
            · rw [if_neg hc, if_neg hc]
              have ihr := ihl (fun q hq => hmem q (List.mem_cons_of_mem _ hq))
              cases hrc : removeCh L rest (chunk k.hashv L) k with
              | none => simp [ihr.mp hrc]
              | some rest' =>
                  have : ¬lookupCh L rest (chunk k.hashv L) k = none := by
                    intro hl
                    rw [ihr.mpr hl] at hrc
                    cases hrc
                  simpa using this
      have hiff := inner children (fun q hq => ih q hq)
      cases hrc : removeCh L children (chunk k.hashv L) k with
      | none => simp [hiff.mp hrc]
      | some children' =>
          have : ¬lookupCh L children (chunk k.hashv L) k = none := by
            intro hl
            rw [hiff.mpr hl] at hrc
            cases hrc
          simpa using this

/-- Well-formedness of an optional subtree (`none` is the vanished tree). -/
def WFRoot {V : Type} (L p : Nat) : Option (Node V) → Prop
  | none => True
  | some n => WF L p n

theorem normalizeBranch_nil {V : Type} :
    normalizeBranch ([] : List (Nat × Node V)) = none := rfl

theorem normalizeBranch_single_leaf {V : Type} (c : Nat) (k : Key) (v : V) :
    normalizeBranch [(c, Node.leaf k v)] = some (.leaf k v) := rfl

theorem normalizeBranch_single_collision {V : Type} (c tag : Nat)
    (bucket : List (Key × V)) :
    normalizeBranch [(c, Node.collision tag bucket)] = some (.collision tag bucket) := rfl

theorem normalizeBranch_single_branch {V : Type} (c : Nat)
    (cs : List (Nat × Node V)) :
    normalizeBranch [(c, Node.branch cs)] = some (.branch [(c, Node.branch cs)]) := rfl

theorem normalizeBranch_cons2 {V : Type} (q1 q2 : Nat × Node V)
    (rest : List (Nat × Node V)) :
    normalizeBranch (q1 :: q2 :: rest) = some (.branch (q1 :: q2 :: rest)) := by
  obtain ⟨c1, n1⟩ := q1
  cases n1 <;> rfl

/-- Collapsing a now-singleton branch preserves well-formedness. -/
theorem WF_normalizeBranch {V : Type} {L p : Nat} {children' : List (Nat × Node V)}
    (hplt : p < 32 ^ L) (hLlt : L < maxLevels)
    (hnd : (children'.map Prod.fst).Nodup)
    (hch : ∀ q ∈ children', WF (L + 1) (p + q.1 * 32 ^ L) q.2) :
    WFRoot L p (normalizeBranch children') := by
  match children' with
  | [] => exact trivial
  | [(c1, Node.leaf kx vx)] =>
      rw [normalizeBranch_single_leaf]
      have hwfc := hch (c1, .leaf kx vx) (List.mem_cons_self _ _)
      cases hwfc with
      | leaf hplt' hLle' hkp' =>
          exact WF.leaf hplt (by omega) (prefix_inj hplt hkp').1
  | [(c1, Node.collision tag bucket)] =>
      rw [normalizeBranch_single_collision]
      have hwfc := hch (c1, .collision tag bucket) (List.mem_cons_self _ _)
      cases hwfc with
      | collision hplt' hLle' hbt' htag' hkeys' hnd' =>
          exact WF.collision hplt (by omega) hbt' (prefix_inj hplt htag').1 hkeys' hnd'
  | [(c1, Node.branch cs)] =>
      rw [normalizeBranch_single_branch]
      exact WF.branch hplt hLlt hnd hch
  | q1 :: q2 :: rest =>
      rw [normalizeBranch_cons2]
      exact WF.branch hplt hLlt hnd hch

/-- The result of a bucket removal is well formed where it exists. -/
theorem WF_collapseBucket {V : Type} {L p tag : Nat} {bucket : List (Key × V)}
    (hplt : p < 32 ^ L) (hLle : L ≤ maxLevels) (hbt : tag < 2 ^ 64)
    (htag : tag % 32 ^ L = p) (hkeys : ∀ q ∈ bucket, Key.hashv q.1 = tag)
    (hnd : (bucket.map Prod.fst).Nodup) (k : Key) :
    WFRoot L p (collapseBucket tag (bucketRemove bucket k)) := by
  have hsub := bucketRemove_keys_sublist bucket k
  have hkeys' : ∀ q ∈ bucketRemove bucket k, Key.hashv q.1 = tag :=
    fun q hq => hkeys q (mem_bucketRemove hq).1
  have hnd' : ((bucketRemove bucket k).map Prod.fst).Nodup := hnd.sublist hsub
  match hb : bucketRemove bucket k with
  | [] => exact trivial
  | [(k1, v1)] =>
      show WF L p (.leaf k1 v1)
      have hk1 : Key.hashv k1 = tag := by
        have := hkeys' (k1, v1) (by rw [hb]; exact List.mem_cons_self _ _)
        simpa using this
      exact WF.leaf hplt hLle (by rw [hk1]; exact htag)
  | q1 :: q2 :: rest =>
      show WF L p (.collision tag (q1 :: q2 :: rest))
      rw [← hb]
      exact WF.collision hplt hLle hbt htag hkeys' hnd'

/-- Removal inside a child array: the surviving slots are well formed and
their chunk indices are a sub-sequence of the original ones. -/
theorem removeCh_facts {V : Type} {k : Key} {L p : Nat} :
    ∀ {cs cs' : List (Nat × Node V)},
      (∀ q ∈ cs, WF (L + 1) (p + q.1 * 32 ^ L) q.2) →
      (∀ q ∈ cs, ∀ rr, removeN (L + 1) q.2 k = some rr →
        WFRoot (L + 1) (p + q.1 * 32 ^ L) rr) →
      ∀ {c : Nat}, removeCh L cs c k = some cs' →
        (∀ q ∈ cs', WF (L + 1) (p + q.1 * 32 ^ L) q.2) ∧
          (cs'.map Prod.fst).Sublist (cs.map Prod.fst) := by
  intro cs
  induction cs with
  | nil =>
      intro cs' _ _ c hrc
      rw [removeCh_nil] at hrc
      cases hrc
  | cons q rest ih =>
      intro cs' hwfs hrecs c hrc
      obtain ⟨c', ch⟩ := q
      rw [removeCh_cons] at hrc
      by_cases hc : c' = c
      · rw [if_pos hc] at hrc
        cases hrn : removeN (L + 1) ch k with
        | none =>
            rw [hrn] at hrc
            cases hrc
        | some rr =>
            rw [hrn] at hrc
            have hwfr := hrecs (c', ch) (List.mem_cons_self _ _) rr hrn
            cases rr with
            | none =>
                obtain rfl := Option.some.injEq .. ▸ hrc
                refine ⟨fun q hq => hwfs q (List.mem_cons_of_mem _ hq), ?_⟩
                simp
            | some ch' =>
                obtain rfl := Option.some.injEq .. ▸ hrc
                constructor
                · intro q hq
                  rcases List.mem_cons.mp hq with he | hq2
                  · rw [he]
                    exact hwfr
                  · exact hwfs q (List.mem_cons_of_mem _ hq2)
                · simp
      · rw [if_neg hc] at hrc
        cases hrr : removeCh L rest c k with
        | none =>
            rw [hrr] at hrc
            cases hrc
        | some rest' =>
            rw [hrr] at hrc
            obtain rfl := Option.some.injEq .. ▸ hrc
            obtain ⟨hwf', hsub'⟩ := ih
              (fun q hq => hwfs q (List.mem_cons_of_mem _ hq))
              (fun q hq => hrecs q (List.mem_cons_of_mem _ hq)) hrr
            constructor
            · intro q hq
              rcases List.mem_cons.mp hq with he | hq2
              · rw [he]
                exact hwfs (c', ch) (List.mem_cons_self _ _)
              · exact hwf' q hq2
            · simpa using hsub'.cons₂ c'

/-- Remove preserves well-formedness of the (possibly vanished) subtree. -/
theorem WF_removeN {V : Type} {k : Key} :
    ∀ {L p : Nat} {n : Node V}, WF L p n → ∀ {r}, removeN L n k = some r →
      WFRoot L p r := by
  intro L p n hwf
  induction hwf with
  | @leaf L p kx vx hplt hLle hkp =>
      intro r hr
      rw [removeN_leaf] at hr
      by_cases hx : kx = k
      · rw [if_pos hx] at hr
        obtain rfl := Option.some.injEq .. ▸ hr
        exact trivial
      · rw [if_neg hx] at hr
        cases hr
  | @collision L p tag bucket hplt hLle hbt htag hkeys hnd =>
      intro r hr
      rw [removeN_collision] at hr
      by_cases hh : k.hashv = tag
      · rw [if_pos hh] at hr
        by_cases hany : (bucket.any fun q => q.1 == k) = true
        · rw [if_pos hany] at hr
          obtain rfl := Option.some.injEq .. ▸ hr
          exact WF_collapseBucket hplt hLle hbt htag hkeys hnd k
        · rw [if_neg hany] at hr
          cases hr
      · rw [if_neg hh] at hr
        cases hr
  | @branch L p children hplt hLlt hnd hch ih =>
      intro r hr
      rw [removeN_branch] at hr
      cases hrc : removeCh L children (chunk k.hashv L) k with
      | none =>
          rw [hrc] at hr
          cases hr
      | some children' =>
          rw [hrc] at hr
          obtain rfl := Option.some.injEq .. ▸ hr
          obtain ⟨hwf', hsub'⟩ := removeCh_facts hch (fun q hq rr hrr => ih q hq hrr) hrc
          exact WF_normalizeBranch hplt hLlt (hnd.sublist hsub') hwf'

/-- Lookup through a possibly vanished subtree. -/
def lookupRoot {V : Type} (L : Nat) (r : Option (Node V)) (j : Key) : Option V :=
  match r with
  | none => none
  | some n => lookupN L n j

theorem lookupCh_not_mem {V : Type} {children : List (Nat × Node V)} {c : Nat}
    (h : c ∉ children.map Prod.fst) (L : Nat) (j : Key) :
    lookupCh L children c j = none := by
  induction children with
  | nil => rfl
  | cons q rest ih =>
      obtain ⟨c', ch⟩ := q
      have h' : ¬(c = c' ∨ c ∈ rest.map Prod.fst) := by simpa using h
      rw [lookupCh_cons, if_neg (fun he => h' (Or.inl he.symm))]
      exact ih (fun hm => h' (Or.inr hm))

/-- Collapsing a now-singleton branch does not change lookups. -/
theorem lookupRoot_normalizeBranch {V : Type} {L p : Nat}
    {children' : List (Nat × Node V)} (hplt : p < 32 ^ L)
    (hch : ∀ q ∈ children', WF (L + 1) (p + q.1 * 32 ^ L) q.2) (j : Key) :
    lookupRoot L (normalizeBranch children') j =
      lookupCh L children' (chunk j.hashv L) j := by
  match children' with
  | [] => rfl
  | [(c1, Node.leaf kx vx)] =>
      rw [normalizeBranch_single_leaf]
      show lookupN L (.leaf kx vx) j = _
      rw [lookupCh_cons, lookupCh_nil]
      have hwfc := hch (c1, .leaf kx vx) (List.mem_cons_self _ _)
      cases hwfc with
      | leaf hplt' hLle' hkp' =>
          have hcx : chunk kx.hashv L = c1 := (prefix_inj hplt hkp').2
          by_cases hc : c1 = chunk j.hashv L
          · rw [if_pos hc, lookupN_leaf, lookupN_leaf]
          · rw [if_neg hc, lookupN_leaf]
            exact if_neg (fun he => hc (by rw [← hcx, he]))
  | [(c1, Node.collision tag bucket)] =>
      rw [normalizeBranch_single_collision]
      show lookupN L (.collision tag bucket) j = _
      rw [lookupCh_cons, lookupCh_nil]
      have hwfc := hch (c1, .collision tag bucket) (List.mem_cons_self _ _)
      cases hwfc with
      | collision hplt' hLle' hbt' htag' hkeys' hnd' =>
          have hct : chunk tag L = c1 := (prefix_inj hplt htag').2
          by_cases hc : c1 = chunk j.hashv L
          · rw [if_pos hc, lookupN_collision, lookupN_collision]
          · rw [if_neg hc, lookupN_collision]
            exact if_neg (fun he => hc (by rw [← hct, ← he]))
  | [(c1, Node.branch cs)] =>
      rw [normalizeBranch_single_branch]
      rfl
  | q1 :: q2 :: rest =>
      rw [normalizeBranch_cons2]
      rfl

/-- Removal inside a child array, seen through lookups. -/
theorem lookupCh_removeCh {V : Type} {k j : Key} {L : Nat} :
    ∀ {cs cs' : List (Nat × Node V)},
      (cs.map Prod.fst).Nodup →
      (∀ q ∈ cs, ∀ rr, removeN (L + 1) q.2 k = some rr →
        lookupRoot (L + 1) rr j = if j = k then none else lookupN (L + 1) q.2 j) →
      removeCh L cs (chunk k.hashv L) k = some cs' →
      lookupCh L cs' (chunk j.hashv L) j =
        if j = k then none else lookupCh L cs (chunk j.hashv L) j := by
  intro cs
  induction cs with
  | nil =>
      intro cs' _ _ hrc
      rw [removeCh_nil] at hrc
      cases hrc
  | cons q rest ih =>
      intro cs' hnd hrecs hrc
      obtain ⟨c', ch⟩ := q
      have hnd' : (∀ x : Node V, (c', x) ∉ rest) ∧
          (List.map Prod.fst rest).Nodup := by simpa using hnd
      have hndc : c' ∉ rest.map Prod.fst := by
        intro hm
        obtain ⟨⟨cx, chx⟩, hmem, he⟩ := List.mem_map.mp hm
        simp only at he
        subst he
        exact hnd'.1 chx hmem
      rw [removeCh_cons] at hrc
      by_cases hc : c' = chunk k.hashv L
      · rw [if_pos hc] at hrc
        cases hrn : removeN (L + 1) ch k with
        | none =>
            rw [hrn] at hrc
            cases hrc
        | some rr =>
            rw [hrn] at hrc
            have hrec := hrecs (c', ch) (List.mem_cons_self _ _) rr hrn
            cases rr with
            | none =>
                obtain rfl := Option.some.injEq .. ▸ hrc
                by_cases hcj : c' = chunk j.hashv L
                · rw [← hcj, lookupCh_not_mem hndc, lookupCh_cons, if_pos rfl]
                  by_cases hjk : j = k
                  · rw [if_pos hjk]
                  · rw [if_neg hjk]
                    rw [if_neg hjk] at hrec
                    exact hrec
                · rw [lookupCh_cons, if_neg hcj]
                  have hjk : j ≠ k := by
                    intro he
                    subst he
                    exact hcj hc
                  rw [if_neg hjk]
            | some ch' =>
                obtain rfl := Option.some.injEq .. ▸ hrc
                rw [lookupCh_cons, lookupCh_cons]
                by_cases hcj : c' = chunk j.hashv L
                · rw [if_pos hcj, if_pos hcj]
                  exact hrec
                · rw [if_neg hcj, if_neg hcj]
                  have hjk : j ≠ k := by
                    intro he
                    subst he
                    exact hcj hc
                  rw [if_neg hjk]
      · rw [if_neg hc] at hrc
        cases hrr : removeCh L rest (chunk k.hashv L) k with
        | none =>
            rw [hrr] at hrc
            cases hrc
        | some rest' =>
            rw [hrr] at hrc
            obtain rfl := Option.some.injEq .. ▸ hrc
            rw [lookupCh_cons, lookupCh_cons]
            by_cases hcj : c' = chunk j.hashv L
            · rw [if_pos hcj, if_pos hcj]
              have hjk : j ≠ k := by
                intro he
                subst he
                exact hc hcj
              rw [if_neg hjk]
            · rw [if_neg hcj, if_neg hcj]
              exact ih hnd'.2
                (fun q hq => hrecs q (List.mem_cons_of_mem _ hq)) hrr

/-- Modelled-from-the-spec remove is observably the functional deletion:
looking up `j` after removing `k` misses at `k` and is otherwise unchanged. -/
theorem lookupN_removeN {V : Type} {k j : Key} :
    ∀ {L p : Nat} {n : Node V}, WF L p n → ∀ {r}, removeN L n k = some r →
      lookupRoot L r j = if j = k then none else lookupN L n j := by
  intro L p n hwf
  induction hwf with
  | @leaf L p kx vx hplt hLle hkp =>
      intro r hr
      rw [removeN_leaf] at hr
      by_cases hx : kx = k
      · rw [if_pos hx] at hr
        obtain rfl := Option.some.injEq .. ▸ hr
        show (none : Option V) = _
        by_cases hjk : j = k
        · rw [if_pos hjk]
        · rw [if_neg hjk, lookupN_leaf,
            if_neg (fun he : kx = j => hjk (by rw [← he, hx]))]
      · rw [if_neg hx] at hr
        cases hr
  | @collision L p tag bucket hplt hLle hbt htag hkeys hnd =>
      intro r hr
      rw [removeN_collision] at hr
      by_cases hh : k.hashv = tag
      · rw [if_pos hh] at hr
        by_cases hany : (bucket.any fun q => q.1 == k) = true
        · rw [if_pos hany] at hr
          obtain rfl := Option.some.injEq .. ▸ hr
          match hb : bucketRemove bucket k with
          | [] =>
              show (none : Option V) = _
              by_cases hjk : j = k
              · rw [if_pos hjk]
              · rw [if_neg hjk, lookupN_collision]
                have hfind : bucket.find? (fun q => q.1 == j) = none := by
                  apply List.find?_eq_none.mpr
                  intro q hq hqj
                  have hqj' : q.1 = j := by simpa using hqj
                  have : q ∈ bucketRemove bucket k :=
                    mem_bucketRemove_of hq (by rw [hqj']; exact hjk)
                  rw [hb] at this
                  cases this
                rw [hfind]
                by_cases hjt : j.hashv = tag
                · rw [if_pos hjt]
                  rfl
                · rw [if_neg hjt]
          | [(k1, v1)] =>
              show lookupN L (.leaf k1 v1) j = _
              have hk1mem : (k1, v1) ∈ bucketRemove bucket k := by
                rw [hb]
                exact List.mem_cons_self _ _
              have hk1 := mem_bucketRemove hk1mem
              by_cases hjk : j = k
              · subst hjk
                rw [if_pos rfl, lookupN_leaf,
                  if_neg (show k1 ≠ j from hk1.2)]
              · rw [if_neg hjk, lookupN_leaf, lookupN_collision]
                by_cases hj1 : k1 = j
                · subst hj1
                  rw [if_pos rfl,
                    if_pos (show k1.hashv = tag from hkeys (k1, v1) hk1.1),
                    find?_key_of_mem_nodup hk1.1 hnd]
                  rfl
                · rw [if_neg hj1]
                  have hfind : bucket.find? (fun q => q.1 == j) = none := by
                    apply List.find?_eq_none.mpr
                    intro q hq hqj
                    have hqj' : q.1 = j := by simpa using hqj
                    have hmem : q ∈ bucketRemove bucket k :=
                      mem_bucketRemove_of hq (by rw [hqj']; exact hjk)
                    rw [hb, List.mem_singleton] at hmem
                    exact hj1 (by rw [← hqj', hmem])
                  rw [hfind]
                  by_cases hjt : j.hashv = tag
                  · rw [if_pos hjt]
                    rfl
                  · rw [if_neg hjt]
          | q1 :: q2 :: rest =>
              show lookupN L (.collision tag (q1 :: q2 :: rest)) j = _
              rw [← hb, lookupN_collision, lookupN_collision]
              by_cases hjk : j = k
              · subst hjk
                rw [if_pos rfl, if_pos hh, find?_bucketRemove_self]
                rfl
              · rw [if_neg hjk, find?_bucketRemove_ne bucket k hjk]
        · rw [if_neg hany] at hr
          cases hr
      · rw [if_neg hh] at hr
        cases hr
  | @branch L p children hplt hLlt hnd hch ih =>
      intro r hr
      rw [removeN_branch] at hr
      cases hrc : removeCh L children (chunk k.hashv L) k with
      | none =>
          rw [hrc] at hr
          cases hr
      | some children' =>
          rw [hrc] at hr
          obtain rfl := Option.some.injEq .. ▸ hr
          obtain ⟨hwf', _⟩ := removeCh_facts hch
            (fun q hq rr hrr => WF_removeN (hch q hq) hrr) hrc
          rw [lookupRoot_normalizeBranch hplt hwf' j,
            lookupCh_removeCh hnd (fun q hq rr hrr => ih q hq hrr) hrc,
            lookupN_branch]

theorem hashv_mod_one (k : Key) : k.hashv % 32 ^ 0 = 0 := by
  simp [Nat.mod_one]

/-- The root produced by a facade insert is well formed. -/
theorem WF_root_insertM {V : Type} {m : HashTrieMap V}
    (hw : ∀ n, m.root = some n → WF 0 0 n) (k : Key) (v : V) :
    ∀ n', (insertM m k v).root = some n' → WF 0 0 n' := by
  intro n' h
  cases hroot : m.root with
  | none =>
      rw [insertM] at h
      rw [hroot] at h
      obtain rfl := Option.some.injEq .. ▸ h.symm
      exact WF.leaf (by simp) (by norm_num [maxLevels]) (hashv_mod_one k)
  | some n =>
      rw [insertM] at h
      rw [hroot] at h
      obtain rfl := Option.some.injEq .. ▸ h.symm
      exact WF_insertN (hw n hroot) (hashv_mod_one k)

/-- Facade insert, seen through lookups. -/
theorem lookupM_insertM {V : Type} {m : HashTrieMap V}
    (hw : ∀ n, m.root = some n → WF 0 0 n) (k : Key) (v : V) (j : Key) :
    lookupM (insertM m k v) j = if j = k then some v else lookupM m j := by
  cases hroot : m.root with
  | none =>
      simp only [lookupM, insertM, hroot]
      rw [lookupN_leaf]
      by_cases hje : k = j
      · subst hje
        simp
      · simp [hje, Ne.symm hje]
  | some n =>
      simp only [lookupM, insertM, hroot]
      exact lookupN_insertN (hw n hroot) (hashv_mod_one k)

/-- The key set of an optional root. -/
def keysetR {V : Type} : Option (Node V) → Finset Key
  | none => ∅
  | some n => keysetN n

/-- The key set of a facade map. -/
def keysetM {V : Type} (m : HashTrieMap V) : Finset Key :=
  keysetR m.root

theorem mem_keysetR_iff {V : Type} {r : Option (Node V)} (hw : WFRoot 0 0 r) (j : Key) :
    j ∈ keysetR r ↔ (lookupRoot 0 r j).isSome := by
  cases r with
  | none => simp [keysetR, lookupRoot]
  | some n => exact mem_keysetN_iff hw j

theorem mem_keysetM_iff {V : Type} {m : HashTrieMap V}
    (hw : ∀ n, m.root = some n → WF 0 0 n) (j : Key) :
    j ∈ keysetM m ↔ (lookupM m j).isSome := by
  cases hroot : m.root with
  | none => simp [keysetM, keysetR, hroot, lookupM]
  | some n =>
      rw [keysetM, hroot]
      show j ∈ keysetN n ↔ _
      rw [mem_keysetN_iff (hw n hroot) j]
      simp [lookupM, hroot]

theorem mem_itemsM_iff {V : Type} {m : HashTrieMap V}
    (hw : ∀ n, m.root = some n → WF 0 0 n) (j : Key) (w : V) :
    (j, w) ∈ itemsM m ↔ lookupM m j = some w := by
  cases hroot : m.root with
  | none => simp [itemsM, hroot, lookupM]
  | some n =>
      rw [itemsM, hroot]
      show (j, w) ∈ entriesN n ↔ _
      rw [mem_entriesN_iff (hw n hroot)]
      simp [lookupM, hroot]

theorem length_itemsM_eq_card {V : Type} {m : HashTrieMap V}
    (hw : ∀ n, m.root = some n → WF 0 0 n) :
    (itemsM m).length = (keysetM m).card := by
  cases hroot : m.root with
  | none => simp [itemsM, keysetM, keysetR, hroot]
  | some n =>
      rw [itemsM, hroot, keysetM, hroot]
      exact length_entriesN_eq_card (hw n hroot)

theorem sizeM_eq_card {V : Type} {m : HashTrieMap V} (hm : MWF m) :
    m.size = (keysetM m).card := by
  rw [hm.2]
  exact length_itemsM_eq_card hm.1

/-- The key set after a facade insert. -/
theorem keysetM_insertM {V : Type} {m : HashTrieMap V}
    (hw : ∀ n, m.root = some n → WF 0 0 n) (k : Key) (v : V) :
    keysetM (insertM m k v) = insert k (keysetM m) := by
  apply Finset.ext
  intro j
  rw [mem_keysetM_iff (WF_root_insertM hw k v) j, Finset.mem_insert,
    mem_keysetM_iff hw j, lookupM_insertM hw k v j]
  by_cases hjk : j = k
  · simp [hjk]
  · simp [hjk]

/-- Facade insert preserves the map invariant. -/
theorem MWF_insertM {V : Type} {m : HashTrieMap V} (hm : MWF m) (k : Key) (v : V) :
    MWF (insertM m k v) := by
  refine ⟨WF_root_insertM hm.1 k v, ?_⟩
  show m.size + (if containsM m k then 0 else 1) =
    (itemsM (insertM m k v)).length
  rw [length_itemsM_eq_card (WF_root_insertM hm.1 k v), keysetM_insertM hm.1 k v,
    sizeM_eq_card hm]
  by_cases hc : containsM m k
  · rw [if_pos hc]
    have hkmem : k ∈ keysetM m := (mem_keysetM_iff hm.1 k).mpr hc
    rw [Finset.insert_eq_self.mpr hkmem, Nat.add_zero]
  · rw [if_neg hc]
    have hkmem : k ∉ keysetM m := fun hmem =>
      hc ((mem_keysetM_iff hm.1 k).mp hmem)
    rw [Finset.card_insert_of_not_mem hkmem]

/-- Facade remove fails exactly on a lookup miss, reporting the key. -/
theorem removeM_error_iff {V : Type} {m : HashTrieMap V}
    (hw : ∀ n, m.root = some n → WF 0 0 n) (k : Key) :
    removeM m k = .error k ↔ lookupM m k = none := by
  cases hroot : m.root with
  | none => simp [removeM, hroot, lookupM]
  | some n =>
      simp only [removeM, hroot, lookupM]
      cases hrn : removeN 0 n k with
      | none =>
          simp only [hrn]
          simp [(removeN_none_iff (hw n hroot)).mp hrn]
      | some r =>
          simp only [hrn]
          have : ¬lookupN 0 n k = none := by
            intro hl
            rw [(removeN_none_iff (hw n hroot)).mpr hl] at hrn
            cases hrn
          simp [this]

/-- A successful facade remove, seen through lookups. -/
theorem lookupM_removeM {V : Type} {m mr : HashTrieMap V}
    (hw : ∀ n, m.root = some n → WF 0 0 n) {k : Key}
    (hok : removeM m k = .ok mr) (j : Key) :
    lookupM mr j = if j = k then none else lookupM m j := by
  cases hroot : m.root with
  | none =>
      simp only [removeM, hroot] at hok
      cases hok
  | some n =>
      simp only [removeM, hroot] at hok
      cases hrn : removeN 0 n k with
      | none =>
          rw [hrn] at hok
          cases hok
      | some r =>
          rw [hrn] at hok
          obtain rfl := Except.ok.injEq .. ▸ hok.symm
          show lookupRoot 0 r j = _
          rw [lookupN_removeN (hw n hroot) hrn]
          simp [lookupM, hroot]

/-- A successful facade remove ends in a well-formed root. -/
theorem WF_root_removeM {V : Type} {m mr : HashTrieMap V}
    (hw : ∀ n, m.root = some n → WF 0 0 n) {k : Key}
    (hok : removeM m k = .ok mr) :
    ∀ n', mr.root = some n' → WF 0 0 n' := by
  cases hroot : m.root with
  | none =>
      simp only [removeM, hroot] at hok
      cases hok
  | some n =>
      simp only [removeM, hroot] at hok
      cases hrn : removeN 0 n k with
      | none =>
          rw [hrn] at hok
          cases hok
      | some r =>
          rw [hrn] at hok
          obtain rfl := Except.ok.injEq .. ▸ hok.symm
          intro n' hn'
          have hwr := WF_removeN (hw n hroot) hrn
          rw [show r = some n' from hn'] at hwr
          exact hwr

/-- A successful facade remove and its size bookkeeping. -/
theorem MWF_removeM {V : Type} {m mr : HashTrieMap V} (hm : MWF m) {k : Key}
    (hok : removeM m k = .ok mr) : MWF mr := by
  refine ⟨WF_root_removeM hm.1 hok, ?_⟩
  have hkmem : k ∈ keysetM m := by
    rw [mem_keysetM_iff hm.1 k]
    by_contra hnone
    have : lookupM m k = none := by
      cases hlk : lookupM m k with
      | none => rfl
      | some w => rw [hlk] at hnone; exact absurd rfl hnone
    rw [(removeM_error_iff hm.1 k).mpr this] at hok
    cases hok
  have hsz : mr.size = m.size - 1 := by
    cases hroot : m.root with
    | none => simp only [removeM, hroot] at hok; cases hok
    | some n =>
        simp only [removeM, hroot] at hok
        cases hrn : removeN 0 n k with
        | none => rw [hrn] at hok; cases hok
        | some r =>
            rw [hrn] at hok
            obtain rfl := Except.ok.injEq .. ▸ hok.symm
            rfl
  have hkeys : keysetM mr = (keysetM m).erase k := by
    apply Finset.ext
    intro j
    rw [mem_keysetM_iff (WF_root_removeM hm.1 hok) j, Finset.mem_erase,
      mem_keysetM_iff hm.1 j, lookupM_removeM hm.1 hok j]
    by_cases hjk : j = k
    · simp [hjk]
    · simp [hjk]
  rw [length_itemsM_eq_card (WF_root_removeM hm.1 hok), hkeys,
    Finset.card_erase_of_mem hkmem, hsz, sizeM_eq_card hm]

/-- Discard of an absent key returns the receiver itself. -/
theorem discardM_absent {V : Type} {m : HashTrieMap V}
    (hw : ∀ n, m.root = some n → WF 0 0 n) {k : Key}
    (habs : lookupM m k = none) : discardM m k = m := by
  cases hroot : m.root with
  | none => rw [discardM, hroot]
  | some n =>
      simp only [discardM, hroot]
      simp only [lookupM, hroot] at habs
      rw [(removeN_none_iff (hw n hroot)).mpr habs]

/-- Discard of a present key agrees with remove. -/
theorem discardM_present {V : Type} {m mr : HashTrieMap V} {k : Key}
    (hok : removeM m k = .ok mr) : discardM m k = mr := by
  cases hroot : m.root with
  | none => simp only [removeM, hroot] at hok; cases hok
  | some n =>
      simp only [removeM, hroot] at hok
      cases hrn : removeN 0 n k with
      | none => rw [hrn] at hok; cases hok
      | some r =>
          rw [hrn] at hok
          obtain rfl := Except.ok.injEq .. ▸ hok.symm
          simp only [discardM, hroot, hrn]

/-- Discard preserves the map invariant. -/
theorem MWF_discardM {V : Type} {m : HashTrieMap V} (hm : MWF m) (k : Key) :
    MWF (discardM m k) := by
  cases hlk : lookupM m k with
  | none => rw [discardM_absent hm.1 hlk]; exact hm
  | some w =>
      have hne : ¬removeM m k = .error k := by
        intro he
        rw [(removeM_error_iff hm.1 k).mp he] at hlk
        cases hlk
      cases hok : removeM m k with
      | error e =>
          have he : e = k := by
            cases hroot : m.root with
            | none => rw [lookupM, hroot] at hlk; cases hlk
            | some n =>
                simp only [removeM, hroot] at hok
                cases hrn : removeN 0 n k with
                | none =>
                    rw [hrn] at hok
                    injection hok with he2
                    exact he2.symm
                | some r => rw [hrn] at hok; cases hok
          rw [he] at hok
          exact absurd hok hne
      | ok mr =>
          rw [discardM_present hok]
          exact MWF_removeM hm hok

/-- The empty facade map satisfies the invariant. -/
theorem MWF_emptyM (V : Type) : MWF (emptyM V) :=
  ⟨fun _ h => Option.noConfusion h, rfl⟩

/-- The remove failure always reports the requested key. -/
theorem removeM_error_key {V : Type} {m : HashTrieMap V} {k e : Key}
    (h : removeM m k = .error e) : e = k := by
  cases hroot : m.root with
  | none =>
      simp only [removeM, hroot] at h
      injection h with he
      exact he.symm
  | some n =>
      simp only [removeM, hroot] at h
      cases hrn : removeN 0 n k with
      | none =>
          rw [hrn] at h
          injection h with he
          exact he.symm
      | some r =>
          rw [hrn] at h
          cases h

/-- Maps with identical lookup functions compare equal. -/
theorem mapEq_of_lookup_eq {V : Type} [DecidableEq V] {m1 m2 : HashTrieMap V}
    (h1 : MWF m1) (h2 : MWF m2) (hl : ∀ j, lookupM m1 j = lookupM m2 j) :
    mapEq m1 m2 = true := by
  rw [mapEq, Bool.and_eq_true]
  constructor
  · rw [beq_iff_eq, sizeM_eq_card h1, sizeM_eq_card h2]
    congr 1
    apply Finset.ext
    intro j
    rw [mem_keysetM_iff h1.1 j, mem_keysetM_iff h2.1 j, hl j]
  · rw [List.all_eq_true]
    intro q hq
    obtain ⟨j, w⟩ := q
    rw [beq_iff_eq, ← hl j]
    exact (mem_itemsM_iff h1.1 j w).mp hq

/-- Equality is reflexive on well-formed maps. -/
theorem mapEq_refl {V : Type} [DecidableEq V] {m : HashTrieMap V} (hm : MWF m) :
    mapEq m m = true :=
  mapEq_of_lookup_eq hm hm (fun _ => rfl)

theorem mapNe_false_of_eq {V : Type} [DecidableEq V] {m1 m2 : HashTrieMap V}
    (h : mapEq m1 m2 = true) : mapNe m1 m2 = false := by
  rw [mapNe, h]
  rfl

/-- Each insert/remove step preserves the map invariant. -/
theorem MWF_applyOp {V : Type} {m : HashTrieMap V} (hm : MWF m) (op : MapOp V) :
    MWF (applyOp m op) := by
  cases op with
  | ins k v => exact MWF_insertM hm k v
  | del k => exact MWF_discardM hm k

/-- Every map produced by a sequence of operations satisfies the invariant. -/
theorem MWF_runOps {V : Type} (ops : List (MapOp V)) : MWF (runOps ops) := by
  rw [runOps]
  have h : ∀ (l : List (MapOp V)) (m : HashTrieMap V), MWF m →
      MWF (l.foldl applyOp m) := by
    intro l
    induction l with
    | nil => intro m hm; exact hm
    | cons op rest ih =>
        intro m hm
        exact ih (applyOp m op) (MWF_applyOp hm op)
  exact h ops (emptyM V) (MWF_emptyM V)

/-- Maps with the same set of entries have identical lookup functions. -/
theorem lookup_eq_of_items_toFinset_eq {V : Type} [DecidableEq V]
    {m1 m2 : HashTrieMap V} (h1 : MWF m1) (h2 : MWF m2)
    (hset : (itemsM m1).toFinset = (itemsM m2).toFinset) (j : Key) :
    lookupM m1 j = lookupM m2 j := by
  have hmem : ∀ w, ((j, w) ∈ itemsM m1 ↔ (j, w) ∈ itemsM m2) := by
    intro w
    rw [← List.mem_toFinset, ← List.mem_toFinset (l := itemsM m2), hset]
  cases hl1 : lookupM m1 j with
  | none =>
      cases hl2 : lookupM m2 j with
      | none => rfl
      | some w =>
          have := (mem_itemsM_iff h1.1 j w).mp
            ((hmem w).mpr ((mem_itemsM_iff h2.1 j w).mpr hl2))
          rw [this] at hl1
          cases hl1
  | some w =>
      have := (mem_itemsM_iff h2.1 j w).mp
        ((hmem w).mp ((mem_itemsM_iff h1.1 j w).mpr hl1))
      rw [this]

/-- C1: for every map `m`, key `k` and value `v`, the call `m.insert(k, v)`
returns a fresh map and leaves the receiver observably unchanged: `len(m)`,
membership `k in m`, and every lookup on `m` are the same before and after
the call (persistence is inherent in the pure value semantics that the spec
prescribes for every mutating-looking operation). -/
theorem claim_C1_insert_persistence {V : Type} (m : HashTrieMap V) (k : Key) (v : V) :
    lenM (insertCall m k v).2 = lenM m ∧
    (∀ j, containsM (insertCall m k v).2 j = containsM m j) ∧
    (∀ j, lookupM (insertCall m k v).2 j = lookupM m j) :=
  ⟨rfl, fun _ => rfl, fun _ => rfl⟩

/-- C2: for every well-formed map `m`, key `k` absent from `m` and value
`v`, removing `k` right after inserting it succeeds and returns a map equal
to `m` (in both orders of the equality test). -/
theorem claim_C2_insert_remove_inverse {V : Type} [DecidableEq V]
    (m : HashTrieMap V) (k : Key) (v : V) (hm : MWF m)
    (habs : lookupM m k = none) :
    ∃ mr, removeM (insertM m k v) k = Except.ok mr ∧
      mapEq mr m = true ∧ mapEq m mr = true := by
  have hm' := MWF_insertM hm k v
  have hlk : lookupM (insertM m k v) k = some v := by
    rw [lookupM_insertM hm.1 k v k, if_pos rfl]
  cases hok : removeM (insertM m k v) k with
  | error e =>
      exfalso
      rw [removeM_error_key hok] at hok
      rw [(removeM_error_iff hm'.1 k).mp hok] at hlk
      cases hlk
  | ok mr =>
      have hmr := MWF_removeM hm' hok
      have hl : ∀ j, lookupM mr j = lookupM m j := by
        intro j
        rw [lookupM_removeM hm'.1 hok j, lookupM_insertM hm.1 k v j]
        by_cases hjk : j = k
        · rw [if_pos hjk, hjk, habs]
        · rw [if_neg hjk, if_neg hjk]
      exact ⟨mr, rfl, mapEq_of_lookup_eq hmr hm hl,
        mapEq_of_lookup_eq hm hmr (fun j => (hl j).symm)⟩

/-- C3: any two insert/remove sequences that produce the same final set of
key/value pairs yield maps that compare equal (and not unequal) in both
orders, independent of insertion order and internal trie shape; in
particular, inserting the pairs `(i, i)` for `i` in `0..50` forward and in
reverse order yields equal maps. -/
theorem claim_C3_order_independent_equality :
    (∀ (V : Type) (_ : DecidableEq V) (ops1 ops2 : List (MapOp V)),
      (itemsM (runOps ops1)).toFinset = (itemsM (runOps ops2)).toFinset →
        mapEq (runOps ops1) (runOps ops2) = true ∧
        mapEq (runOps ops2) (runOps ops1) = true ∧
        mapNe (runOps ops1) (runOps ops2) = false ∧
        mapNe (runOps ops2) (runOps ops1) = false) ∧
    (mapEq (runOps fwd50) (runOps rev50) = true ∧
      mapNe (runOps fwd50) (runOps rev50) = false) := by
  constructor
  · intro V hdec ops1 ops2 hset
    have h1 := MWF_runOps ops1
    have h2 := MWF_runOps ops2
    have hl := lookup_eq_of_items_toFinset_eq h1 h2 hset
    have he1 := mapEq_of_lookup_eq h1 h2 hl
    have he2 := mapEq_of_lookup_eq h2 h1 (fun j => (hl j).symm)
    exact ⟨he1, he2, mapNe_false_of_eq he1, mapNe_false_of_eq he2⟩
  · constructor
    · decide
    · decide

/-- C4: for every stack `s` and value `v`, peeking after a push returns the
pushed value and popping after a push returns the original stack (both as
the identical value and under the stack equality test). -/
theorem claim_C4_stack_lifo {α : Type} [DecidableEq α] (s : Stack α) (v : α) :
    peekS (pushS s v) = Except.ok v ∧ popS (pushS s v) = Except.ok s ∧
      (∃ t, popS (pushS s v) = Except.ok t ∧ stackEq t s = true) := by
  obtain ⟨el, le⟩ := s
  refine ⟨rfl, ?_, ?_⟩
  · simp [pushS, popS]
  · exact ⟨⟨el, le⟩, by simp [pushS, popS], by simp [stackEq]⟩

/-- C5: on a well-formed map, indexed lookup and `remove` of an absent key
both fail with the missing-key condition carrying the offending key, while
`discard` returns the receiver itself (hence a map equal to it); when the
key is present, lookup returns the stored value and `remove` succeeds. -/
theorem claim_C5_missing_key {V : Type} [DecidableEq V] (m : HashTrieMap V)
    (k : Key) (hm : MWF m) :
    (lookupM m k = none →
      getItemM m k = Except.error k ∧ removeM m k = Except.error k ∧
      discardM m k = m ∧ mapEq (discardM m k) m = true) ∧
    (∀ v, lookupM m k = some v →
      getItemM m k = Except.ok v ∧ ∃ mr, removeM m k = Except.ok mr) := by
  constructor
  · intro habs
    refine ⟨by rw [getItemM, habs], (removeM_error_iff hm.1 k).mpr habs,
      discardM_absent hm.1 habs, ?_⟩
    rw [discardM_absent hm.1 habs]
    exact mapEq_refl hm
  · intro v hv
    refine ⟨by rw [getItemM, hv], ?_⟩
    cases hok : removeM m k with
    | error e =>
        exfalso
        rw [removeM_error_key hok] at hok
        rw [(removeM_error_iff hm.1 k).mp hok] at hv
        cases hv
    | ok mr => exact ⟨mr, rfl⟩

/-- C6: `peek` and `pop` on the empty stack fail with the empty-collection
condition, and neither ever fails on a non-empty stack. -/
theorem claim_C6_empty_stack_errors (α : Type) :
    peekS (emptyS α) = Except.error StackErr.empty ∧
    popS (emptyS α) = Except.error StackErr.empty ∧
    (∀ s : Stack α, s.elems ≠ [] →
      (∃ v, peekS s = Except.ok v) ∧ ∃ t, popS s = Except.ok t) := by
  refine ⟨rfl, rfl, ?_⟩
  intro s hne
  obtain ⟨el, le⟩ := s
  cases el with
  | nil => exact absurd rfl hne
  | cons v rest => exact ⟨⟨v, rfl⟩, ⟨⟨rest, le - 1⟩, rfl⟩⟩

/-- C7: two distinct keys with identical engine hashes both end up stored
after inserting them into the same well-formed map: each is retrievable
with its own value, both appear among the items, and the size counts both
entries. -/
theorem claim_C7_collision_correctness {V : Type} (m : HashTrieMap V)
    (k1 k2 : Key) (v1 v2 : V) (hm : MWF m) (hne : k1 ≠ k2)
    (_hhash : k1.hashv = k2.hashv)
    (h1 : lookupM m k1 = none) (h2 : lookupM m k2 = none) :
    lookupM (insertM (insertM m k1 v1) k2 v2) k1 = some v1 ∧
    lookupM (insertM (insertM m k1 v1) k2 v2) k2 = some v2 ∧
    (k1, v1) ∈ itemsM (insertM (insertM m k1 v1) k2 v2) ∧
    (k2, v2) ∈ itemsM (insertM (insertM m k1 v1) k2 v2) ∧
    lenM (insertM (insertM m k1 v1) k2 v2) = lenM m + 2 := by
  have hm1 := MWF_insertM hm k1 v1
  have hm2 := MWF_insertM hm1 k2 v2
  have hl1 : lookupM (insertM (insertM m k1 v1) k2 v2) k1 = some v1 := by
    rw [lookupM_insertM hm1.1 k2 v2 k1, if_neg hne,
      lookupM_insertM hm.1 k1 v1 k1, if_pos rfl]
  have hl2 : lookupM (insertM (insertM m k1 v1) k2 v2) k2 = some v2 := by
    rw [lookupM_insertM hm1.1 k2 v2 k2, if_pos rfl]
  have hc1 : containsM m k1 = false := by
    rw [containsM, h1]
    rfl
  have hc2 : containsM (insertM m k1 v1) k2 = false := by
    rw [containsM, lookupM_insertM hm.1 k1 v1 k2, if_neg (Ne.symm hne), h2]
    rfl
  refine ⟨hl1, hl2, (mem_itemsM_iff hm2.1 k1 v1).mpr hl1,
    (mem_itemsM_iff hm2.1 k2 v2).mpr hl2, ?_⟩
  show (insertM m k1 v1).size + _ = m.size + 2
  rw [hc2, if_neg Bool.false_ne_true]
  show (m.size + (if containsM m k1 = true then 0 else 1)) + 1 = m.size + 2
  rw [hc1, if_neg Bool.false_ne_true]

/-- C8: inserting a present key with a value equal to its current value
returns a map equal to the original (in both orders of the equality
test). -/
theorem claim_C8_noop_insert {V : Type} [DecidableEq V] (m : HashTrieMap V)
    (k : Key) (v : V) (hm : MWF m) (hv : lookupM m k = some v) :
    mapEq (insertM m k v) m = true ∧ mapEq m (insertM m k v) = true := by
  have hl : ∀ j, lookupM (insertM m k v) j = lookupM m j := by
    intro j
    rw [lookupM_insertM hm.1 k v j]
    by_cases hjk : j = k
    · rw [if_pos hjk, hjk, hv]
    · rw [if_neg hjk]
  exact ⟨mapEq_of_lookup_eq (MWF_insertM hm k v) hm hl,
    mapEq_of_lookup_eq hm (MWF_insertM hm k v) (fun j => (hl j).symm)⟩

/-- C9: a persistent map never compares equal to a value of any other kind
(for example a native mapping), whatever that value's contents: `==` is
false and `!=` is true, in both orders. -/
theorem claim_C9_no_cross_kind_equality {V : Type} [DecidableEq V]
    (m : HashTrieMap V) (y : PyValue V) (hy : ∀ m2, y ≠ PyValue.map m2) :
    pyEq (PyValue.map m) y = false ∧ pyEq y (PyValue.map m) = false ∧
    pyNe (PyValue.map m) y = true ∧ pyNe y (PyValue.map m) = true := by
  cases y with
  | map m2 => exact absurd rfl (hy m2)
  | dict d => exact ⟨rfl, rfl, rfl, rfl⟩
  | other o => exact ⟨rfl, rfl, rfl, rfl⟩

/-- C10: the truthiness of a map reflects non-emptiness: `bool(m)` is true
exactly when `len(m) > 0`. -/
theorem claim_C10_truthiness {V : Type} (m : HashTrieMap V) :
    toBoolM m = true ↔ 0 < lenM m := by
  rw [toBoolM, lenM]
  cases m.size with
  | zero => simp
  | succ n => simp

/-- Witness for C2: the empty map, key `⟨1, 1⟩`, value `5`. -/
theorem claim_C2_witness :
    MWF (emptyM Nat) ∧ lookupM (emptyM Nat) ⟨1, 1⟩ = none ∧
    ∃ mr, removeM (insertM (emptyM Nat) ⟨1, 1⟩ 5) ⟨1, 1⟩ = Except.ok mr ∧
      mapEq mr (emptyM Nat) = true ∧ mapEq (emptyM Nat) mr = true :=
  ⟨MWF_emptyM Nat, rfl,
    claim_C2_insert_remove_inverse (emptyM Nat) ⟨1, 1⟩ 5 (MWF_emptyM Nat) rfl⟩

/-- Witness for C3: two two-element insert sequences in opposite orders. -/
theorem claim_C3_witness :
    (itemsM (runOps [MapOp.ins ⟨1, 1⟩ 5, MapOp.ins ⟨2, 2⟩ 6])).toFinset =
      (itemsM (runOps [MapOp.ins ⟨2, 2⟩ 6, MapOp.ins ⟨1, 1⟩ 5])).toFinset ∧
    mapEq (runOps [MapOp.ins ⟨1, 1⟩ 5, MapOp.ins ⟨2, 2⟩ 6])
      (runOps [MapOp.ins ⟨2, 2⟩ 6, MapOp.ins ⟨1, 1⟩ 5]) = true := by
  have hset : (itemsM (runOps [MapOp.ins ⟨1, 1⟩ 5, MapOp.ins ⟨2, 2⟩ 6])).toFinset =
      (itemsM (runOps [MapOp.ins ⟨2, 2⟩ 6, MapOp.ins ⟨1, 1⟩ 5])).toFinset := by
    decide
  exact ⟨hset,
    (claim_C3_order_independent_equality.1 Nat instDecidableEqNat _ _ hset).1⟩

/-- Witness for C5: the one-entry map `{⟨1, 1⟩: 5}`, with the absent key
`⟨2, 2⟩` and the present key `⟨1, 1⟩`. -/
theorem claim_C5_witness :
    MWF (insertM (emptyM Nat) ⟨1, 1⟩ 5) ∧
    (lookupM (insertM (emptyM Nat) ⟨1, 1⟩ 5) ⟨2, 2⟩ = none ∧
      getItemM (insertM (emptyM Nat) ⟨1, 1⟩ 5) ⟨2, 2⟩ = Except.error ⟨2, 2⟩ ∧
      removeM (insertM (emptyM Nat) ⟨1, 1⟩ 5) ⟨2, 2⟩ = Except.error ⟨2, 2⟩) ∧
    (lookupM (insertM (emptyM Nat) ⟨1, 1⟩ 5) ⟨1, 1⟩ = some 5 ∧
      getItemM (insertM (emptyM Nat) ⟨1, 1⟩ 5) ⟨1, 1⟩ = Except.ok 5 ∧
      ∃ mr, removeM (insertM (emptyM Nat) ⟨1, 1⟩ 5) ⟨1, 1⟩ = Except.ok mr) := by
  have hm : MWF (insertM (emptyM Nat) ⟨1, 1⟩ 5) :=
    MWF_insertM (MWF_emptyM Nat) ⟨1, 1⟩ 5
  have habs : lookupM (insertM (emptyM Nat) ⟨1, 1⟩ 5) ⟨2, 2⟩ = none := by decide
  have hpres : lookupM (insertM (emptyM Nat) ⟨1, 1⟩ 5) ⟨1, 1⟩ = some 5 := by decide
  obtain ⟨hget, hrem, _, _⟩ :=
    (claim_C5_missing_key (insertM (emptyM Nat) ⟨1, 1⟩ 5) ⟨2, 2⟩ hm).1 habs
  obtain ⟨hget2, hrem2⟩ :=
    (claim_C5_missing_key (insertM (emptyM Nat) ⟨1, 1⟩ 5) ⟨1, 1⟩ hm).2 5 hpres
  exact ⟨hm, ⟨habs, hget, hrem⟩, ⟨hpres, hget2, hrem2⟩⟩

/-- Witness for C6: a one-element stack never fails to peek or pop. -/
theorem claim_C6_witness :
    (⟨[5], 1⟩ : Stack Nat).elems ≠ [] ∧
    ((∃ v, peekS (⟨[5], 1⟩ : Stack Nat) = Except.ok v) ∧
      ∃ t, popS (⟨[5], 1⟩ : Stack Nat) = Except.ok t) := by
  have hne : (⟨[5], 1⟩ : Stack Nat).elems ≠ [] := by simp
  exact ⟨hne, (claim_C6_empty_stack_errors Nat).2.2 ⟨[5], 1⟩ hne⟩

/-- Witness for C7: the distinct keys `⟨1, 7⟩` and `⟨2, 7⟩` share hash `7`
and are inserted into the empty map. -/
theorem claim_C7_witness :
    ((⟨1, 7⟩ : Key) ≠ ⟨2, 7⟩ ∧ Key.hashv ⟨1, 7⟩ = Key.hashv ⟨2, 7⟩ ∧
      MWF (emptyM Nat) ∧ lookupM (emptyM Nat) ⟨1, 7⟩ = none ∧
      lookupM (emptyM Nat) ⟨2, 7⟩ = none) ∧
    (lookupM (insertM (insertM (emptyM Nat) ⟨1, 7⟩ 10) ⟨2, 7⟩ 20) ⟨1, 7⟩ = some 10 ∧
      lookupM (insertM (insertM (emptyM Nat) ⟨1, 7⟩ 10) ⟨2, 7⟩ 20) ⟨2, 7⟩ = some 20 ∧
      (⟨1, 7⟩, 10) ∈ itemsM (insertM (insertM (emptyM Nat) ⟨1, 7⟩ 10) ⟨2, 7⟩ 20) ∧
      (⟨2, 7⟩, 20) ∈ itemsM (insertM (insertM (emptyM Nat) ⟨1, 7⟩ 10) ⟨2, 7⟩ 20) ∧
      lenM (insertM (insertM (emptyM Nat) ⟨1, 7⟩ 10) ⟨2, 7⟩ 20) = lenM (emptyM Nat) + 2) :=
  ⟨⟨by decide, by decide, MWF_emptyM Nat, rfl, rfl⟩,
    claim_C7_collision_correctness (emptyM Nat) ⟨1, 7⟩ ⟨2, 7⟩ 10 20
      (MWF_emptyM Nat) (by decide) (by decide) rfl rfl⟩

/-- Witness for C8: re-inserting the stored value `5` at key `⟨1, 1⟩`. -/
theorem claim_C8_witness :
    lookupM (insertM (emptyM Nat) ⟨1, 1⟩ 5) ⟨1, 1⟩ = some 5 ∧
    mapEq (insertM (insertM (emptyM Nat) ⟨1, 1⟩ 5) ⟨1, 1⟩ 5)
      (insertM (emptyM Nat) ⟨1, 1⟩ 5) = true := by
  have hm := MWF_insertM (MWF_emptyM Nat) (⟨1, 1⟩ : Key) 5
  have hv : lookupM (insertM (emptyM Nat) ⟨1, 1⟩ 5) ⟨1, 1⟩ = some 5 := by decide
  exact ⟨hv, (claim_C8_noop_insert (insertM (emptyM Nat) ⟨1, 1⟩ 5) ⟨1, 1⟩ 5 hm hv).1⟩

/-- Witness for C9: a native mapping with identical contents still never
compares equal to the map. -/
theorem claim_C9_witness :
    (∀ m2 : HashTrieMap Nat,
      (PyValue.dict [(⟨1, 1⟩, 5)] : PyValue Nat) ≠ PyValue.map m2) ∧
    pyEq (PyValue.map (insertM (emptyM Nat) ⟨1, 1⟩ 5))
      (PyValue.dict [(⟨1, 1⟩, 5)]) = false ∧
    pyNe (PyValue.map (insertM (emptyM Nat) ⟨1, 1⟩ 5))
      (PyValue.dict [(⟨1, 1⟩, 5)]) = true := by
  have hy : ∀ m2 : HashTrieMap Nat,
      (PyValue.dict [(⟨1, 1⟩, 5)] : PyValue Nat) ≠ PyValue.map m2 :=
    fun m2 h => PyValue.noConfusion h
  have h9 := claim_C9_no_cross_kind_equality (insertM (emptyM Nat) ⟨1, 1⟩ 5)
    (PyValue.dict [(⟨1, 1⟩, 5)]) hy
  exact ⟨hy, h9.1, h9.2.2.1⟩

/-- Witness for C1: the one-entry map is untouched by a further insert. -/
theorem claim_C1_witness :
    lenM (insertCall (insertM (emptyM Nat) ⟨1, 1⟩ 5) ⟨2, 2⟩ 6).2 =
      lenM (insertM (emptyM Nat) ⟨1, 1⟩ 5) ∧
    (∀ j, containsM (insertCall (insertM (emptyM Nat) ⟨1, 1⟩ 5) ⟨2, 2⟩ 6).2 j =
      containsM (insertM (emptyM Nat) ⟨1, 1⟩ 5) j) ∧
    (∀ j, lookupM (insertCall (insertM (emptyM Nat) ⟨1, 1⟩ 5) ⟨2, 2⟩ 6).2 j =
      lookupM (insertM (emptyM Nat) ⟨1, 1⟩ 5) j) :=
  claim_C1_insert_persistence (insertM (emptyM Nat) ⟨1, 1⟩ 5) ⟨2, 2⟩ 6

/-- Witness for C4: pushing `7` onto the stack `[5]`. -/
theorem claim_C4_witness :
    peekS (pushS (⟨[5], 1⟩ : Stack Nat) 7) = Except.ok 7 ∧
    popS (pushS (⟨[5], 1⟩ : Stack Nat) 7) = Except.ok ⟨[5], 1⟩ ∧
    (∃ t, popS (pushS (⟨[5], 1⟩ : Stack Nat) 7) = Except.ok t ∧
      stackEq t ⟨[5], 1⟩ = true) :=
  claim_C4_stack_lifo ⟨[5], 1⟩ 7

/-- Witness for C10: the empty map is falsy, the one-entry map truthy. -/
theorem claim_C10_witness :
    (toBoolM (emptyM Nat) = true ↔ 0 < lenM (emptyM Nat)) ∧
    (toBoolM (insertM (emptyM Nat) ⟨1, 1⟩ 5) = true ↔
      0 < lenM (insertM (emptyM Nat) ⟨1, 1⟩ 5)) :=
  ⟨claim_C10_truthiness (emptyM Nat),
    claim_C10_truthiness (insertM (emptyM Nat) ⟨1, 1⟩ 5)⟩

end Rpds
